import Mathlib

/-!
Shallow embedding of the raylib-js wrapper layer (C sources under src/src/wrappers)
and proofs about its slot-table allocators and its greedy text-wrapping routine.

Modelling conventions:
 - C `int` parameters and results are `Int`; C `unsigned int` is `Nat`.
 - C `float` quantities (text widths) are modelled as exact rationals.
 - Caller-supplied output buffers are modelled as functions `Nat -> Int`
   (or `Nat -> Rat`); a write updates the function at one index.
 - External raylib capabilities (LoadFontEx, LoadModel, MeasureTextEx, ...)
   are parameters of the embedded operations: the caller of the model supplies
   the value the native library would have returned.
 - NULL pointer arguments are modelled by explicit Bool flags or Option.
-/

/-- RGBA color as four 8-bit channels, each held in a Nat. -/
structure ColorQ where
  r : Nat
  g : Nat
  b : Nat
  a : Nat
deriving DecidableEq

namespace FontWrapper

/-- Embeds ColorFromU32 of src/src/wrappers/fonts/font-wrapper.c:
R from bits 24-31, G from 16-23, B from 8-15, A from 0-7. -/
def ColorFromU32 (color : Nat) : ColorQ :=
  { r := (color >>> 24) &&& 0xFF
    g := (color >>> 16) &&& 0xFF
    b := (color >>> 8) &&& 0xFF
    a := color &&& 0xFF }

end FontWrapper

namespace RaylibWrapper

/-- Embeds ColorFromU32 of src/src/wrappers/raylib-wrapper.c:
R from bits 0-7, G from 8-15, B from 16-23, A from 24-31. -/
def ColorFromU32 (hexValue : Nat) : ColorQ :=
  { r := hexValue &&& 0xFF
    g := (hexValue >>> 8) &&& 0xFF
    b := (hexValue >>> 16) &&& 0xFF
    a := (hexValue >>> 24) &&& 0xFF }

end RaylibWrapper

/-- Embeds IntToColor of src/src/wrappers/shapes/triangle-wrapper.c:
R from the lowest byte, A from the highest byte. -/
def IntToColor (colorInt : Nat) : ColorQ :=
  { r := colorInt &&& 0xFF
    g := (colorInt >>> 8) &&& 0xFF
    b := (colorInt >>> 16) &&& 0xFF
    a := (colorInt >>> 24) &&& 0xFF }

/-- Pointwise update of a buffer or table modelled as a function. -/
def updAt {α : Type} (f : Nat → α) (i : Nat) (v : α) : Nat → α :=
  fun j => if j = i then v else f j

theorem updAt_same {α : Type} (f : Nat → α) (i : Nat) (v : α) : updAt f i v i = v := by
  simp [updAt]

theorem updAt_other {α : Type} (f : Nat → α) (i j : Nat) (v : α) (h : j ≠ i) :
    updAt f i v j = f j := by
  simp [updAt, h]

/-! ## Font slot table (font-wrapper.c) -/

/-- Native font resource as returned by LoadFontEx (opaque to the wrapper
except for the fields it reads). -/
structure FontR where
  textureId : Nat
  baseSize : Int
  glyphCount : Int
deriving DecidableEq

/-- One entry of the fontSlots array. -/
structure FontSlot where
  font : FontR
  isLoaded : Bool
  baseSize : Int
  glyphCount : Int
deriving DecidableEq

/-- The fontSlots array; only indices 0..31 are ever accessed. -/
def FontTable : Type := Nat → FontSlot

def emptyFontSlot : FontSlot :=
  { font := ⟨0, 0, 0⟩, isLoaded := false, baseSize := 0, glyphCount := 0 }

def emptyFontTable : FontTable := fun _ => emptyFontSlot

/-- Embeds FindFreeFontSlot: first index below 32 whose slot is not loaded, else -1. -/
def FindFreeFontSlot (st : FontTable) : Int :=
  match (List.range 32).find? (fun i => !(st i).isLoaded) with
  | some i => (i : Int)
  | none => -1

/-- Embeds LoadFontToSlot. The `loaded` argument is the Font that the external
LoadFontEx capability returned for `(fileName, fontSize)`. Returns the updated
table and the returned slot index. -/
def LoadFontToSlot (st : FontTable) (fileNameNull : Bool) (fontSize : Int)
    (loaded : FontR) : FontTable × Int :=
  if fileNameNull ∨ fontSize ≤ 0 then (st, -1)
  else
    let slotIndex := FindFreeFontSlot st
    if slotIndex = -1 then (st, -1)
    else if loaded.textureId = 0 then (st, -1)
    else
      (updAt st slotIndex.toNat
        { font := loaded, isLoaded := true, baseSize := loaded.baseSize
          glyphCount := loaded.glyphCount },
       slotIndex)

/-- Embeds UnloadFontBySlot. -/
def UnloadFontBySlot (st : FontTable) (slotIndex : Int) : FontTable :=
  if slotIndex < 0 ∨ 32 ≤ slotIndex ∨ !(st slotIndex.toNat).isLoaded then st
  else updAt st slotIndex.toNat emptyFontSlot

/-- Embeds IsFontSlotValid. -/
def IsFontSlotValid (st : FontTable) (slotIndex : Int) : Bool :=
  if slotIndex < 0 ∨ 32 ≤ slotIndex then false
  else (st slotIndex.toNat).isLoaded

/-- Embeds GetLoadedFontCount. -/
def GetLoadedFontCount (st : FontTable) : Int :=
  ((List.range 32).countP (fun i => (st i).isLoaded) : Nat)

/-- Embeds GetFontDataBySlot: writes baseSize and glyphCount (or zeros) into the
two-int output buffer, unless the buffer is NULL. -/
def GetFontDataBySlot (st : FontTable) (slotIndex : Int) (outNull : Bool)
    (outBuffer : Nat → Int) : Nat → Int :=
  if slotIndex < 0 ∨ 32 ≤ slotIndex ∨ !(st slotIndex.toNat).isLoaded ∨ outNull then
    if outNull then outBuffer
    else updAt (updAt outBuffer 0 0) 1 0
  else
    updAt (updAt outBuffer 0 (st slotIndex.toNat).baseSize) 1 (st slotIndex.toNat).glyphCount

/-! ## Shader slot table (shader-wrapper.c) -/

structure ShaderR where
  id : Nat
deriving DecidableEq

structure ShaderSlot where
  shader : ShaderR
  isValid : Bool
  locationCache : Nat → Int
  locationNames : Nat → List Char
  cacheCount : Int

def ShaderTable : Type := Nat → ShaderSlot

def emptyShaderSlot : ShaderSlot :=
  { shader := ⟨0⟩, isValid := false, locationCache := fun _ => 0
    locationNames := fun _ => [], cacheCount := 0 }

def emptyShaderTable : ShaderTable := fun _ => emptyShaderSlot

/-- Embeds FindFreeShaderSlot. -/
def FindFreeShaderSlot (st : ShaderTable) : Int :=
  match (List.range 32).find? (fun i => !(st i).isValid) with
  | some i => (i : Int)
  | none => -1

/-- Embeds LoadShaderToSlot; `loaded` is the Shader returned by the external
LoadShader capability. -/
def LoadShaderToSlot (st : ShaderTable) (loaded : ShaderR) : ShaderTable × Int :=
  let slotIndex := FindFreeShaderSlot st
  if slotIndex = -1 then (st, -1)
  else if loaded.id = 0 then (st, -1)
  else
    (updAt st slotIndex.toNat
      { shader := loaded, isValid := true, cacheCount := 0
        locationCache := fun _ => -1, locationNames := fun _ => [] },
     slotIndex)

/-- Embeds GetLoadedShaderCount. -/
def GetLoadedShaderCount (st : ShaderTable) : Int :=
  ((List.range 32).countP (fun i => (st i).isValid) : Nat)

/-! ## Texture slot table (texture-wrapper.c) -/

structure TextureR where
  id : Nat
  width : Int
  height : Int
  mipmaps : Int
  format : Int
deriving DecidableEq

structure TextureSlot where
  texture : TextureR
  isLoaded : Bool
  fileName : List Char
deriving DecidableEq

def TextureTable : Type := Nat → TextureSlot

def emptyTextureSlot : TextureSlot :=
  { texture := ⟨0, 0, 0, 0, 0⟩, isLoaded := false, fileName := [] }

def emptyTextureTable : TextureTable := fun _ => emptyTextureSlot

/-- Embeds FindFreeTextureSlot. -/
def FindFreeTextureSlot (st : TextureTable) : Int :=
  match (List.range 256).find? (fun i => !(st i).isLoaded) with
  | some i => (i : Int)
  | none => -1

/-- Embeds LoadTextureToSlot; `loaded` is the Texture2D returned by the
external LoadTexture capability. -/
def LoadTextureToSlot (st : TextureTable) (fileName : List Char)
    (loaded : TextureR) : TextureTable × Int :=
  let slotIndex := FindFreeTextureSlot st
  if slotIndex = -1 then (st, -1)
  else if loaded.id = 0 then (st, -1)
  else
    (updAt st slotIndex.toNat
      { texture := loaded, isLoaded := true, fileName := fileName.take 255 },
     slotIndex)

/-- Embeds GetLoadedTextureCount. -/
def GetLoadedTextureCount (st : TextureTable) : Int :=
  ((List.range 256).countP (fun i => (st i).isLoaded) : Nat)

/-! ## Model slot table and animation table (model-wrapper.c) -/

/-- Native model resource: the two counts the wrapper reads. -/
structure ModelR where
  meshCount : Int
  materialCount : Int
deriving DecidableEq

/-- Bounding box as computed by the external GetModelBoundingBox capability. -/
structure BBoxQ where
  minX : Rat
  minY : Rat
  minZ : Rat
  maxX : Rat
  maxY : Rat
  maxZ : Rat
deriving DecidableEq

structure ModelSlot where
  model : ModelR
  isLoaded : Bool
  fileName : List Char
  boundingBox : BBoxQ
deriving DecidableEq

def ModelTable : Type := Nat → ModelSlot

def bbox0 : BBoxQ := ⟨0, 0, 0, 0, 0, 0⟩

def emptyModelSlot : ModelSlot :=
  { model := ⟨0, 0⟩, isLoaded := false, fileName := [], boundingBox := bbox0 }

def emptyModelTable : ModelTable := fun _ => emptyModelSlot

/-- Embeds FindFreeModelSlot. -/
def FindFreeModelSlot (st : ModelTable) : Int :=
  match (List.range 64).find? (fun i => !(st i).isLoaded) with
  | some i => (i : Int)
  | none => -1

/-- Embeds LoadModelToSlot. `loaded` and `bbox` are the results of the external
LoadModel and GetModelBoundingBox capabilities. Returns the updated table, the
returned slot index, and the final contents of the 3-int output buffer.
Note the source writes the buffer only on the success path. -/
def LoadModelToSlot (st : ModelTable) (fileName : List Char) (loaded : ModelR)
    (bbox : BBoxQ) (outBuffer : Nat → Int) : ModelTable × Int × (Nat → Int) :=
  let slotIndex := FindFreeModelSlot st
  if slotIndex = -1 then (st, -1, outBuffer)
  else if loaded.meshCount = 0 then (st, -1, outBuffer)
  else
    (updAt st slotIndex.toNat
      { model := loaded, isLoaded := true, fileName := fileName.take 255
        boundingBox := bbox },
     slotIndex,
     updAt (updAt (updAt outBuffer 0 slotIndex) 1 loaded.meshCount) 2 loaded.materialCount)

/-- Embeds GetModelDataBySlot: defaults the buffer first, then overwrites it on
a valid handle. -/
def GetModelDataBySlot (st : ModelTable) (slotIndex : Int)
    (outBuffer : Nat → Int) : Nat → Int :=
  let buf := updAt (updAt (updAt outBuffer 0 (-1)) 1 0) 2 0
  if slotIndex < 0 ∨ 64 ≤ slotIndex ∨ !(st slotIndex.toNat).isLoaded then buf
  else
    updAt (updAt (updAt buf 0 slotIndex) 1 (st slotIndex.toNat).model.meshCount) 2
      (st slotIndex.toNat).model.materialCount

/-- Embeds GetModelBoundingBoxBySlot: defaults the six floats first, then
overwrites them on a valid handle. -/
def GetModelBoundingBoxBySlot (st : ModelTable) (slotIndex : Int)
    (outBuffer : Nat → Rat) : Nat → Rat :=
  let buf := updAt (updAt (updAt (updAt (updAt (updAt outBuffer 0 0) 1 0) 2 0) 3 0) 4 0) 5 0
  if slotIndex < 0 ∨ 64 ≤ slotIndex ∨ !(st slotIndex.toNat).isLoaded then buf
  else
    let bb := (st slotIndex.toNat).boundingBox
    updAt (updAt (updAt (updAt (updAt (updAt buf 0 bb.minX) 1 bb.minY) 2 bb.minZ) 3 bb.maxX)
      4 bb.maxY) 5 bb.maxZ

/-- One entry of the animationSlots array. -/
structure AnimationSlot where
  animationsNull : Bool
  animCount : Int
  isValid : Bool
deriving DecidableEq

def AnimationTable : Type := Nat → AnimationSlot

def emptyAnimationSlot : AnimationSlot :=
  { animationsNull := true, animCount := 0, isValid := false }

def emptyAnimationTable : AnimationTable := fun _ => emptyAnimationSlot

/-- Embeds FindFreeAnimationSlot. -/
def FindFreeAnimationSlot (st : AnimationTable) : Int :=
  match (List.range 32).find? (fun i => !(st i).isValid) with
  | some i => (i : Int)
  | none => -1

/-- Embeds LoadModelAnimationsToSlot. `loadedNull` and `loadedCount` are the
results of the external LoadModelAnimations capability. Returns the updated
table, the returned slot index, and the value written through outAnimCount. -/
def LoadModelAnimationsToSlot (st : AnimationTable) (loadedNull : Bool)
    (loadedCount : Nat) : AnimationTable × Int × Int :=
  let slotIndex := FindFreeAnimationSlot st
  if slotIndex = -1 then (st, -1, 0)
  else if loadedNull ∨ loadedCount = 0 then (st, -1, 0)
  else
    (updAt st slotIndex.toNat
      { animationsNull := false, animCount := (loadedCount : Int), isValid := true },
     slotIndex, (loadedCount : Int))

/-! ## Greedy text wrapper (WrapTextBySlot, font-wrapper.c) -/

/-- Guarded character access; every access performed by the embedded code is
within bounds, so the default is never observable. -/
def tget (t : List Char) (i : Nat) : Char := t.getD i ' '

/-- Contiguous segment of the input: characters at indices a, a+1, ..., b-1. -/
def sub (t : List Char) (a b : Nat) : List Char := (t.drop a).take (b - a)

/-- Fuel-driven helper for findWordEnd; the fuel always equals
`t.length - i`, so the scan mirrors the C loop exactly. -/
def findWordEndF (t : List Char) : Nat → Nat → Nat
  | 0, i => i
  | fuel + 1, i =>
    if i < t.length then
      if tget t i = ' ' ∨ tget t i = '\n' then i
      else findWordEndF t fuel (i + 1)
    else i

/-- Embeds the inner scan `while (i < textLen && text[i] != ' ' && text[i] != '\n') i++`:
returns the index of the first space, line break or end of text at or after i. -/
def findWordEnd (t : List Char) (i : Nat) : Nat := findWordEndF t (t.length - i) i

/-- Mutable state of the WrapTextBySlot main loop. `out` is the prefix of the
output buffer written so far (`outIndex` is `out.length`); `maxWrite` records
the largest buffer index written to so far. -/
structure WrapSt where
  out : List Char
  lineCount : Nat
  clw : Rat
  lineStart : Nat
  maxWrite : Nat

def initWrapSt : WrapSt := { out := [], lineCount := 0, clw := 0, lineStart := 0, maxWrite := 0 }

/-- Embeds `outBuffer[outIndex++] = c`. -/
def wpush (s : WrapSt) (c : Char) : WrapSt :=
  { s with out := s.out ++ [c], maxWrite := max s.maxWrite s.out.length }

/-- Embeds `memcpy(outBuffer + outIndex, src, n); outIndex += n`. -/
def wpushList (s : WrapSt) (cs : List Char) : WrapSt := cs.foldl wpush s

/-- Embeds the character-by-character fallback loop for oversized words
(font-wrapper.c lines 261-273). The fuel argument equals `wordEnd - j` at
every call, so the recursion mirrors the C for-loop exactly. -/
def charFallback (m : List Char → Rat) (maxWidth : Rat) (B : Nat) (t : List Char)
    (wordEnd : Nat) : Nat → Nat → WrapSt → WrapSt
  | 0, _, s => s
  | fuel + 1, j, s =>
    if j < wordEnd ∧ s.out.length + 1 < B then
      let c := tget t j
      let charSize := m [c]
      let s1 :=
        if maxWidth < s.clw + charSize ∧ 0 < s.clw then
          let sb := wpush s '\n'
          { sb with lineCount := sb.lineCount + 1, clw := 0 }
        else s
      let s2 := { wpush s1 c with clw := s1.clw + charSize }
      charFallback m maxWidth B t wordEnd fuel (j + 1) s2
    else s

/-- Embeds `if (outIndex > 0 && outBuffer[outIndex-1] == ' ') outIndex--`:
removes the trailing space from the output. -/
def wrapTrim (s : WrapSt) : WrapSt :=
  if s.out.getLast? = some ' ' then { s with out := s.out.dropLast } else s

/-- Embeds `if (outIndex < bufferSize - 1) { outBuffer[outIndex++] = '\n'; lineCount++; }`. -/
def wrapNl (B : Nat) (s : WrapSt) : WrapSt :=
  if s.out.length + 1 < B then
    let sb := wpush s '\n'
    { sb with lineCount := sb.lineCount + 1 }
  else s

/-- Embeds the pre-word line-break block of WrapTextBySlot (font-wrapper.c
lines 246-257): trim one trailing space, emit a line break if there is room,
reset currentLineWidth and lineStartIndex. -/
def wrapBreak (maxWidth : Rat) (B : Nat) (wordStart : Nat) (wordSize : Rat)
    (s : WrapSt) : WrapSt :=
  if 0 < s.clw ∧ maxWidth < s.clw + wordSize then
    { wrapNl B (wrapTrim s) with clw := 0, lineStart := wordStart }
  else s

/-- Embeds the word-placement block of WrapTextBySlot (font-wrapper.c lines
259-281): character fallback for oversized words, whole-word copy otherwise. -/
def wrapPlace (m : List Char → Rat) (maxWidth : Rat) (B : Nat) (t : List Char)
    (wordStart wordEnd wordLen : Nat) (wordBuf : List Char) (wordSize : Rat)
    (s : WrapSt) : WrapSt :=
  if maxWidth < wordSize then
    charFallback m maxWidth B t wordEnd (wordEnd - wordStart) wordStart s
  else
    if s.out.length + wordLen < B then
      { wpushList s wordBuf with clw := s.clw + wordSize }
    else s

/-- Embeds the trailing-space block of WrapTextBySlot (font-wrapper.c lines
284-291) together with the resulting input cursor. -/
def wrapSpace (m : List Char → Rat) (B : Nat) (t : List Char) (wordEnd : Nat)
    (s : WrapSt) : Nat × WrapSt :=
  if wordEnd < t.length ∧ tget t wordEnd = ' ' then
    let spaceSize := m [' ']
    let s3 :=
      if s.out.length + 1 < B then { wpush s ' ' with clw := s.clw + spaceSize }
      else s
    (wordEnd + 1, s3)
  else (wordEnd, s)

/-- Embeds one iteration of the WrapTextBySlot main loop (font-wrapper.c lines
211-292), returning the new input cursor and the new state. Precondition of
every call: `i < t.length` and `s.out.length < B - 1`. -/
def wrapStep (m : List Char → Rat) (maxWidth : Rat) (B : Nat) (t : List Char)
    (i : Nat) (s : WrapSt) : Nat × WrapSt :=
  if tget t i = '\n' then
    let lineLen := i - s.lineStart
    let s1 :=
      if s.out.length + lineLen + 1 < B then
        let sa := wpushList s (sub t s.lineStart i)
        let sb := wpush sa '\n'
        { sb with lineCount := sb.lineCount + 1 }
      else s
    (i + 1, { s1 with lineStart := i + 1, clw := 0 })
  else
    let wordStart := i
    let wordEnd := findWordEnd t i
    let wordLen := min (wordEnd - wordStart) 255
    let wordBuf := sub t wordStart (wordStart + wordLen)
    let wordSize := m wordBuf
    let s1 := wrapBreak maxWidth B wordStart wordSize s
    let s2 := wrapPlace m maxWidth B t wordStart wordEnd wordLen wordBuf wordSize s1
    wrapSpace m B t wordEnd s2

/-- Embeds the WrapTextBySlot main loop `while (i < textLen && outIndex < bufferSize - 1)`.
The cursor advances by at least one per iteration, so fuel `t.length` runs the
loop to completion (wrapGo_fuel_stable below). -/
def wrapGo (m : List Char → Rat) (maxWidth : Rat) (B : Nat) (t : List Char) :
    Nat → Nat → WrapSt → WrapSt
  | 0, _, s => s
  | fuel + 1, i, s =>
    if i < t.length ∧ s.out.length + 1 < B then
      let p := wrapStep m maxWidth B t i s
      wrapGo m maxWidth B t fuel p.1 p.2
    else s

/-- Result of a successful WrapTextBySlot call: buffer contents before the
terminating marker, the returned line count, and the largest buffer index
written (terminator included). -/
structure WrapRes where
  out : List Char
  lineCount : Nat
  maxWrite : Nat
deriving DecidableEq

/-- Embeds WrapTextBySlot (font-wrapper.c lines 187-303). `measureCap` is the
external MeasureTextEx capability (x component); `textOpt = none` and
`outNull = true` model NULL pointers. Returns none exactly when the source
returns -1 (in which case the source writes nothing). -/
def WrapTextBySlot (measureCap : FontR → List Char → Rat → Rat → Rat)
    (st : FontTable) (slotIndex : Int) (textOpt : Option (List Char))
    (fontSize spacing maxWidth : Rat) (outNull : Bool) (bufferSize : Int) :
    Option WrapRes :=
  if slotIndex < 0 ∨ 32 ≤ slotIndex ∨ !(st slotIndex.toNat).isLoaded ∨
      textOpt = none ∨ outNull ∨ fontSize ≤ 0 ∨ maxWidth ≤ 0 ∨ bufferSize ≤ 0 then
    none
  else
    let text := textOpt.getD []
    if text = [] then some { out := [], lineCount := 0, maxWrite := 0 }
    else
      let font := (st slotIndex.toNat).font
      let m := fun l => measureCap font l fontSize spacing
      let B := bufferSize.toNat
      let s := wrapGo m maxWidth B text text.length 0 initWrapSt
      let lineCount :=
        if 0 < s.out.length ∧ s.out.getLast? ≠ some '\n' then s.lineCount + 1
        else s.lineCount
      some { out := s.out, lineCount := lineCount, maxWrite := max s.maxWrite s.out.length }

/-- Width of a list of characters under per-character widths `cw`; the additive
measurement model used to reason about line widths. -/
def measQ (cw : Char → Rat) (l : List Char) : Rat := (l.map cw).sum

/-- An additive measurement capability built from per-character widths. -/
def addMeasure (cw : Char → Rat) : FontR → List Char → Rat → Rat → Rat :=
  fun _ l _ _ => measQ cw l

/-- Splits buffer contents into visual lines at line-break characters. -/
def linesOfAux : List Char → List Char → List (List Char)
  | [], acc => [acc.reverse]
  | c :: rest, acc => if c = '\n' then acc.reverse :: linesOfAux rest [] else linesOfAux rest (c :: acc)

def linesOf (l : List Char) : List (List Char) := linesOfAux l []

/-- The part of the buffer after the last line break (the line still being built). -/
def lastLine (l : List Char) : List Char :=
  (l.reverse.takeWhile (fun c => c != '\n')).reverse

/-- The completed lines of the buffer (all but the one still being built). -/
def doneLines (l : List Char) : List (List Char) := (linesOf l).dropLast

/-- Removes a single trailing space, if present. -/
def trim1 (l : List Char) : List Char :=
  if l.getLast? = some ' ' then l.dropLast else l

/-- Loop invariant used for the amended no-overflow property (claim C1) on
inputs without explicit line breaks, under the additive per-character
measurement model `measQ cw`: the running width equals the measured width of
the line being built, every completed line fits the budget after removing one
trailing space, and the line being built fits the budget except possibly for
one trailing space; the second disjunct covers the buffer-full state in which
a line break could not be written, after which the loop stops writing. -/
def WrapInv (cw : Char → Rat) (maxW : Rat) (B : Nat) (s : WrapSt) : Prop :=
  0 ≤ s.clw ∧
  (∀ l ∈ doneLines s.out, measQ cw (trim1 l) ≤ maxW) ∧
  ((measQ cw (lastLine s.out) = s.clw ∧
      (s.clw ≤ maxW ∨ ((lastLine s.out).getLast? = some ' ' ∧ s.clw ≤ maxW + cw ' '))) ∨
    (measQ cw (trim1 (lastLine s.out)) ≤ maxW ∧ B ≤ s.out.length + 1))

/-! ## Concrete instances used by witnesses and counterexamples -/

/-- Measurement model in which every character is 1 unit wide. -/
def cw1 : Char → Rat := fun _ => 1

/-- Measurement model in which every character is 3 units wide. -/
def cw3 : Char → Rat := fun _ => 3

def loadedFontSlot : FontSlot :=
  { font := ⟨1, 16, 95⟩, isLoaded := true, baseSize := 16, glyphCount := 95 }

/-- Table with exactly slot 0 occupied. -/
def fontTable1 : FontTable := updAt emptyFontTable 0 loadedFontSlot

/-- Table with exactly slot 2 occupied. -/
def fontTable2 : FontTable := updAt emptyFontTable 2 loadedFontSlot

/-- Fully occupied font table. -/
def fullFontTable : FontTable := fun _ => loadedFontSlot

def loadedShaderSlot : ShaderSlot :=
  { shader := ⟨7⟩, isValid := true, locationCache := fun _ => -1
    locationNames := fun _ => [], cacheCount := 0 }

def fullShaderTable : ShaderTable := fun _ => loadedShaderSlot

def loadedTextureSlot : TextureSlot :=
  { texture := ⟨5, 64, 64, 1, 7⟩, isLoaded := true, fileName := ['t'] }

def fullTextureTable : TextureTable := fun _ => loadedTextureSlot

/-- A recognisable non-default buffer content. -/
def buf77 : Nat → Int := fun _ => 77

/-! ## Claim theorems -/

/-- C9: the repository's two 32-bit color-unpacking conventions conflict. The
variant in raylib-wrapper.c and the one in triangle-wrapper.c agree and map
bits 0-7 to R, 8-15 to G, 16-23 to B, 24-31 to A; the variant in font-wrapper.c
maps bits 24-31 to R, 16-23 to G, 8-15 to B, 0-7 to A; and the two conventions
produce different channels on some 32-bit input. -/
theorem claim_C9_color_conventions_conflict :
    (∀ c : Nat, RaylibWrapper.ColorFromU32 c = IntToColor c) ∧
    (∀ c : Nat, c < 2 ^ 32 →
      RaylibWrapper.ColorFromU32 c =
        ⟨c % 256, c / 2 ^ 8 % 256, c / 2 ^ 16 % 256, c / 2 ^ 24 % 256⟩ ∧
      FontWrapper.ColorFromU32 c =
        ⟨c / 2 ^ 24 % 256, c / 2 ^ 16 % 256, c / 2 ^ 8 % 256, c % 256⟩) ∧
    FontWrapper.ColorFromU32 0x11223344 ≠ RaylibWrapper.ColorFromU32 0x11223344 := by
  have hmask : ∀ x : Nat, x &&& 0xFF = x % 256 := by
    intro x
    have h := Nat.and_pow_two_sub_one_eq_mod x 8
    norm_num at h
    exact h
  refine ⟨fun c => rfl, fun c _ => ⟨?_, ?_⟩, by decide⟩
  · simp only [RaylibWrapper.ColorFromU32, ColorQ.mk.injEq]
    refine ⟨hmask c, ?_, ?_, ?_⟩ <;>
      rw [Nat.shiftRight_eq_div_pow, hmask]
  · simp only [FontWrapper.ColorFromU32, ColorQ.mk.injEq]
    refine ⟨?_, ?_, ?_, hmask c⟩ <;>
      rw [Nat.shiftRight_eq_div_pow, hmask]

/-- Witness for C9 at the concrete input 0x11223344. -/
theorem claim_C9_witness :
    RaylibWrapper.ColorFromU32 0x11223344 =
      ⟨0x11223344 % 256, 0x11223344 / 2 ^ 8 % 256, 0x11223344 / 2 ^ 16 % 256,
        0x11223344 / 2 ^ 24 % 256⟩ ∧
    FontWrapper.ColorFromU32 0x11223344 =
      ⟨0x11223344 / 2 ^ 24 % 256, 0x11223344 / 2 ^ 16 % 256, 0x11223344 / 2 ^ 8 % 256,
        0x11223344 % 256⟩ :=
  claim_C9_color_conventions_conflict.2.1 0x11223344 (by norm_num)

theorem find_range_none {n : Nat} {p : Nat → Bool} (h : ∀ i < n, p i = false) :
    (List.range n).find? p = none := by
  rw [List.find?_eq_none]
  intro i hi
  simp only [List.mem_range] at hi
  simp [h i hi]

theorem find_range_some {n i : Nat} {p : Nat → Bool}
    (h : (List.range n).find? p = some i) : i < n ∧ p i = true := by
  have h1 := List.find?_some h
  have h2 := List.mem_of_find?_eq_some h
  simp only [List.mem_range] at h2
  exact ⟨h2, h1⟩

theorem countP_range_full {n : Nat} {p : Nat → Bool} (h : ∀ i < n, p i = true) :
    (List.range n).countP p = n := by
  have h2 : (List.range n).countP p = (List.range n).length :=
    List.countP_eq_length.mpr (fun i hi => by
      simp only [List.mem_range] at hi
      simp [h i hi])
  rw [h2, List.length_range]

/-- C5: on every slot table, when a free slot exists but the external load
capability reports failure (zero texture id, zero shader id, zero mesh count,
null animations or zero animation count), the load returns the failure sentinel
-1 and leaves the table completely unchanged: the found slot stays Empty and
the occupied count is unaffected. -/
theorem claim_C5_failed_load_leaves_slot_empty :
    (∀ (st : FontTable) (fontSize : Int) (loaded : FontR),
        FindFreeFontSlot st ≠ -1 → loaded.textureId = 0 →
        LoadFontToSlot st false fontSize loaded = (st, -1) ∧
        GetLoadedFontCount (LoadFontToSlot st false fontSize loaded).1 =
          GetLoadedFontCount st) ∧
    (∀ (st : ShaderTable) (loaded : ShaderR),
        FindFreeShaderSlot st ≠ -1 → loaded.id = 0 →
        LoadShaderToSlot st loaded = (st, -1)) ∧
    (∀ (st : TextureTable) (fn : List Char) (loaded : TextureR),
        FindFreeTextureSlot st ≠ -1 → loaded.id = 0 →
        LoadTextureToSlot st fn loaded = (st, -1)) ∧
    (∀ (st : ModelTable) (fn : List Char) (loaded : ModelR) (bb : BBoxQ) (buf : Nat → Int),
        FindFreeModelSlot st ≠ -1 → loaded.meshCount = 0 →
        LoadModelToSlot st fn loaded bb buf = (st, -1, buf)) ∧
    (∀ (st : AnimationTable) (loadedNull : Bool) (loadedCount : Nat),
        FindFreeAnimationSlot st ≠ -1 → (loadedNull ∨ loadedCount = 0) →
        LoadModelAnimationsToSlot st loadedNull loadedCount = (st, -1, 0)) := by
  refine ⟨?_, ?_, ?_, ?_, ?_⟩
  · intro st fontSize loaded hfree hid
    by_cases hfs : fontSize ≤ 0
    · constructor <;> simp [LoadFontToSlot, hfs]
    · have : LoadFontToSlot st false fontSize loaded = (st, -1) := by
        simp [LoadFontToSlot, hfs, hfree, hid]
      exact ⟨this, by rw [this]⟩
  · intro st loaded hfree hid
    simp [LoadShaderToSlot, hfree, hid]
  · intro st fn loaded hfree hid
    simp [LoadTextureToSlot, hfree, hid]
  · intro st fn loaded bb buf hfree hmesh
    simp [LoadModelToSlot, hfree, hmesh]
  · intro st loadedNull loadedCount hfree hfail
    rcases hfail with h | h <;> simp [LoadModelAnimationsToSlot, hfree, h]

/-- Witness for C5: concrete failed loads on empty tables leave them unchanged. -/
theorem claim_C5_witness :
    LoadFontToSlot emptyFontTable false 16 ⟨0, 16, 95⟩ = (emptyFontTable, -1) ∧
    LoadShaderToSlot emptyShaderTable ⟨0⟩ = (emptyShaderTable, -1) ∧
    LoadTextureToSlot emptyTextureTable ['t'] ⟨0, 0, 0, 0, 0⟩ = (emptyTextureTable, -1) ∧
    LoadModelToSlot emptyModelTable ['m'] ⟨0, 0⟩ bbox0 buf77 = (emptyModelTable, -1, buf77) ∧
    LoadModelAnimationsToSlot emptyAnimationTable true 0 = (emptyAnimationTable, -1, 0) :=
  ⟨(claim_C5_failed_load_leaves_slot_empty.1 emptyFontTable 16 ⟨0, 16, 95⟩
      (by decide) rfl).1,
   claim_C5_failed_load_leaves_slot_empty.2.1 emptyShaderTable ⟨0⟩ (by decide) rfl,
   claim_C5_failed_load_leaves_slot_empty.2.2.1 emptyTextureTable ['t'] ⟨0, 0, 0, 0, 0⟩
     (by decide) rfl,
   claim_C5_failed_load_leaves_slot_empty.2.2.2.1 emptyModelTable ['m'] ⟨0, 0⟩ bbox0 buf77
     (by decide) rfl,
   claim_C5_failed_load_leaves_slot_empty.2.2.2.2 emptyAnimationTable true 0
     (by decide) (Or.inr rfl)⟩

/-- C6: when every slot of a table is Occupied, the next load fails with the
sentinel -1 without modifying any slot, and the occupied count equals the
capacity (32 fonts, 32 shaders, 256 textures). -/
theorem claim_C6_capacity_exhaustion :
    (∀ st : FontTable, (∀ i < 32, (st i).isLoaded = true) →
        (∀ (fnNull : Bool) (fs : Int) (loaded : FontR),
            LoadFontToSlot st fnNull fs loaded = (st, -1)) ∧
        GetLoadedFontCount st = 32) ∧
    (∀ st : ShaderTable, (∀ i < 32, (st i).isValid = true) →
        (∀ loaded : ShaderR, LoadShaderToSlot st loaded = (st, -1)) ∧
        GetLoadedShaderCount st = 32) ∧
    (∀ st : TextureTable, (∀ i < 256, (st i).isLoaded = true) →
        (∀ (fn : List Char) (loaded : TextureR),
            LoadTextureToSlot st fn loaded = (st, -1)) ∧
        GetLoadedTextureCount st = 256) := by
  refine ⟨?_, ?_, ?_⟩
  · intro st hfull
    have hfind : FindFreeFontSlot st = -1 := by
      unfold FindFreeFontSlot
      rw [find_range_none (fun i hi => by simp [hfull i hi])]
  
    refine ⟨fun fnNull fs loaded => ?_, ?_⟩
    · by_cases hv : fnNull ∨ fs ≤ 0
      · simp [LoadFontToSlot, hv]
      · simp [LoadFontToSlot, hv, hfind]
    · unfold GetLoadedFontCount
      rw [countP_range_full hfull]
      norm_num
  · intro st hfull
    have hfind : FindFreeShaderSlot st = -1 := by
      unfold FindFreeShaderSlot
      rw [find_range_none (fun i hi => by simp [hfull i hi])]
    refine ⟨fun loaded => by simp [LoadShaderToSlot, hfind], ?_⟩
    unfold GetLoadedShaderCount
    rw [countP_range_full hfull]
    norm_num
  · intro st hfull
    have hfind : FindFreeTextureSlot st = -1 := by
      unfold FindFreeTextureSlot
      rw [find_range_none (fun i hi => by simp [hfull i hi])]
    refine ⟨fun fn loaded => by simp [LoadTextureToSlot, hfind], ?_⟩
    unfold GetLoadedTextureCount
    rw [countP_range_full hfull]
    norm_num

/-- Witness for C6 on concrete fully occupied tables. -/
theorem claim_C6_witness :
    LoadFontToSlot fullFontTable false 16 ⟨9, 16, 95⟩ = (fullFontTable, -1) ∧
    GetLoadedFontCount fullFontTable = 32 ∧
    LoadShaderToSlot fullShaderTable ⟨9⟩ = (fullShaderTable, -1) ∧
    GetLoadedShaderCount fullShaderTable = 32 ∧
    LoadTextureToSlot fullTextureTable ['t'] ⟨9, 1, 1, 1, 1⟩ = (fullTextureTable, -1) ∧
    GetLoadedTextureCount fullTextureTable = 256 :=
  ⟨(claim_C6_capacity_exhaustion.1 fullFontTable (fun _ _ => rfl)).1 false 16 ⟨9, 16, 95⟩,
   (claim_C6_capacity_exhaustion.1 fullFontTable (fun _ _ => rfl)).2,
   (claim_C6_capacity_exhaustion.2.1 fullShaderTable (fun _ _ => rfl)).1 ⟨9⟩,
   (claim_C6_capacity_exhaustion.2.1 fullShaderTable (fun _ _ => rfl)).2,
   (claim_C6_capacity_exhaustion.2.2 fullTextureTable (fun _ _ => rfl)).1 ['t'] ⟨9, 1, 1, 1, 1⟩,
   (claim_C6_capacity_exhaustion.2.2 fullTextureTable (fun _ _ => rfl)).2⟩

/-- C7: a valid font handle is stable. A load (which only ever writes a free
slot) and an unload of any other handle both leave the slot of a valid handle
untouched, and the handle stays valid; handles are never relocated. -/
theorem claim_C7_handle_stability :
    ∀ (st : FontTable) (h : Int), IsFontSlotValid st h = true →
      (∀ (fnNull : Bool) (fs : Int) (loaded : FontR),
          (LoadFontToSlot st fnNull fs loaded).1 h.toNat = st h.toNat ∧
          IsFontSlotValid (LoadFontToSlot st fnNull fs loaded).1 h = true) ∧
      (∀ k : Int, k ≠ h →
          UnloadFontBySlot st k h.toNat = st h.toNat ∧
          IsFontSlotValid (UnloadFontBySlot st k) h = true) := by
  intro st h hvalid
  have hrange : ¬(h < 0 ∨ 32 ≤ h) := by
    intro hr
    simp [IsFontSlotValid, hr] at hvalid
  have hload : (st h.toNat).isLoaded = true := by
    simpa [IsFontSlotValid, hrange] using hvalid
  have hvalidOf : ∀ st2 : FontTable, st2 h.toNat = st h.toNat →
      IsFontSlotValid st2 h = true := by
    intro st2 heq
    simp [IsFontSlotValid, hrange, heq, hload]
  constructor
  · intro fnNull fs loaded
    have hpres : (LoadFontToSlot st fnNull fs loaded).1 h.toNat = st h.toNat := by
      by_cases hv : fnNull ∨ fs ≤ 0
      · simp [LoadFontToSlot, hv]
      · unfold LoadFontToSlot FindFreeFontSlot
        rcases hfind : (List.range 32).find? (fun i => !(st i).isLoaded) with _ | i
        · simp [hv, hfind]
        · obtain ⟨_, hfree⟩ := find_range_some hfind
          have hne : h.toNat ≠ ((i : Int)).toNat := by
            intro heq
            rw [heq] at hload
            simp at hload
            simp [hload] at hfree
          by_cases hid : loaded.textureId = 0
          · simp [hv, hfind, hid]
          · simp only [hv, hfind, hid]
            simp only [if_false, Bool.false_eq_true, false_or]
            split
            · rfl
            · exact updAt_other st ((i : Int)).toNat h.toNat _ hne
    exact ⟨hpres, hvalidOf _ hpres⟩
  · intro k hk
    have hpres : UnloadFontBySlot st k h.toNat = st h.toNat := by
      unfold UnloadFontBySlot
      split
      · rfl
      · rename_i hg
        push_neg at hg
        have hne : h.toNat ≠ k.toNat := by omega
        exact updAt_other st k.toNat h.toNat _ hne
    exact ⟨hpres, hvalidOf _ hpres⟩

/-- Witness for C7: slot 2 is untouched and stays valid across a load into the
first free slot (slot 0) and an unload of slot 0. -/
theorem claim_C7_witness :
    (LoadFontToSlot fontTable2 false 16 ⟨3, 16, 95⟩).1 (Int.toNat 2) = fontTable2 (Int.toNat 2) ∧
    IsFontSlotValid (LoadFontToSlot fontTable2 false 16 ⟨3, 16, 95⟩).1 2 = true ∧
    UnloadFontBySlot fontTable2 0 (Int.toNat 2) = fontTable2 (Int.toNat 2) ∧
    IsFontSlotValid (UnloadFontBySlot fontTable2 0) 2 = true :=
  ⟨((claim_C7_handle_stability fontTable2 2 (by decide)).1 false 16 ⟨3, 16, 95⟩).1,
   ((claim_C7_handle_stability fontTable2 2 (by decide)).1 false 16 ⟨3, 16, 95⟩).2,
   ((claim_C7_handle_stability fontTable2 2 (by decide)).2 0 (by decide)).1,
   ((claim_C7_handle_stability fontTable2 2 (by decide)).2 0 (by decide)).2⟩

/-- Counterexample to C4 as stated: LoadModelToSlot takes a caller-supplied
output buffer, yet on a failed native load (zero mesh count, free slots
available) it returns -1 with the buffer completely untouched: index 0 still
holds the arbitrary prior value 77, not a defaulted value. -/
theorem claim_C4_counterexample :
    (LoadModelToSlot emptyModelTable ['m'] ⟨0, 0⟩ bbox0 buf77).2.2 0 = 77 ∧
    (LoadModelToSlot emptyModelTable ['m'] ⟨0, 0⟩ bbox0 buf77).2.1 = -1 ∧
    FindFreeModelSlot emptyModelTable = 0 := by
  refine ⟨?_, ?_, by decide⟩ <;> rfl

/-- C4 (amended): GetModelDataBySlot and GetModelBoundingBoxBySlot initialize
their output buffers to defaulted values before validating, and
GetFontDataBySlot writes defaults on every failure path with a non-null
buffer, so those callers never observe prior memory on failure; but
LoadModelToSlot is an exception: it writes its output buffer only on success,
returning -1 with the buffer untouched on every failure path. -/
theorem claim_C4_output_buffer_defaults :
    (∀ (st : ModelTable) (i : Int) (buf : Nat → Int),
        (i < 0 ∨ 64 ≤ i ∨ (st i.toNat).isLoaded = false) →
        GetModelDataBySlot st i buf 0 = -1 ∧
        GetModelDataBySlot st i buf 1 = 0 ∧
        GetModelDataBySlot st i buf 2 = 0 ∧
        ∀ k, 2 < k → GetModelDataBySlot st i buf k = buf k) ∧
    (∀ (st : ModelTable) (i : Int) (buf : Nat → Rat),
        (i < 0 ∨ 64 ≤ i ∨ (st i.toNat).isLoaded = false) →
        (∀ k, k < 6 → GetModelBoundingBoxBySlot st i buf k = 0) ∧
        ∀ k, 5 < k → GetModelBoundingBoxBySlot st i buf k = buf k) ∧
    (∀ (st : FontTable) (i : Int) (buf : Nat → Int),
        (i < 0 ∨ 32 ≤ i ∨ (st i.toNat).isLoaded = false) →
        GetFontDataBySlot st i false buf 0 = 0 ∧
        GetFontDataBySlot st i false buf 1 = 0 ∧
        ∀ k, 1 < k → GetFontDataBySlot st i false buf k = buf k) ∧
    (∀ (st : ModelTable) (fn : List Char) (loaded : ModelR) (bb : BBoxQ) (buf : Nat → Int),
        (FindFreeModelSlot st = -1 ∨ loaded.meshCount = 0) →
        LoadModelToSlot st fn loaded bb buf = (st, -1, buf)) := by
  refine ⟨?_, ?_, ?_, ?_⟩
  · intro st i buf hbad
    have hc : i < 0 ∨ 64 ≤ i ∨ (!(st i.toNat).isLoaded) = true := by
      rcases hbad with h | h | h
      · exact Or.inl h
      · exact Or.inr (Or.inl h)
      · exact Or.inr (Or.inr (by simp [h]))
    have hval : GetModelDataBySlot st i buf = updAt (updAt (updAt buf 0 (-1)) 1 0) 2 0 := by
      simp only [GetModelDataBySlot]
      rw [if_pos hc]
    refine ⟨?_, ?_, ?_, fun k hk => ?_⟩ <;> rw [hval]
    · rw [updAt_other _ _ _ _ (by omega), updAt_other _ _ _ _ (by omega), updAt_same]
    · rw [updAt_other _ _ _ _ (by omega), updAt_same]
    · rw [updAt_same]
    · rw [updAt_other _ _ _ _ (by omega), updAt_other _ _ _ _ (by omega),
        updAt_other _ _ _ _ (by omega)]
  · intro st i buf hbad
    have hc : i < 0 ∨ 64 ≤ i ∨ (!(st i.toNat).isLoaded) = true := by
      rcases hbad with h | h | h
      · exact Or.inl h
      · exact Or.inr (Or.inl h)
      · exact Or.inr (Or.inr (by simp [h]))
    have hval : GetModelBoundingBoxBySlot st i buf =
        updAt (updAt (updAt (updAt (updAt (updAt buf 0 0) 1 0) 2 0) 3 0) 4 0) 5 0 := by
      simp only [GetModelBoundingBoxBySlot]
      rw [if_pos hc]
    constructor
    · intro k hk
      rw [hval]
      interval_cases k <;> simp [updAt]
    · intro k hk
      rw [hval, updAt_other _ _ _ _ (by omega), updAt_other _ _ _ _ (by omega),
        updAt_other _ _ _ _ (by omega), updAt_other _ _ _ _ (by omega),
        updAt_other _ _ _ _ (by omega), updAt_other _ _ _ _ (by omega)]
  · intro st i buf hbad
    have hc : i < 0 ∨ 32 ≤ i ∨ (!(st i.toNat).isLoaded) = true ∨ (false : Bool) = true := by
      rcases hbad with h | h | h
      · exact Or.inl h
      · exact Or.inr (Or.inl h)
      · exact Or.inr (Or.inr (Or.inl (by simp [h])))
    have hval : GetFontDataBySlot st i false buf = updAt (updAt buf 0 0) 1 0 := by
      simp only [GetFontDataBySlot]
      rw [if_pos hc]
      simp
    refine ⟨?_, ?_, fun k hk => ?_⟩ <;> rw [hval]
    · rw [updAt_other _ _ _ _ (by omega), updAt_same]
    · rw [updAt_same]
    · rw [updAt_other _ _ _ _ (by omega), updAt_other _ _ _ _ (by omega)]
  · intro st fn loaded bb buf hfail
    rcases hfail with h | h
    · simp [LoadModelToSlot, h]
    · by_cases hfree : FindFreeModelSlot st = -1
      · simp [LoadModelToSlot, hfree]
      · simp [LoadModelToSlot, hfree, h]

/-- Witness for C4 (amended) at concrete invalid handles and a concrete failed
model load. -/
theorem claim_C4_witness :
    GetModelDataBySlot emptyModelTable 3 buf77 0 = -1 ∧
    GetModelDataBySlot emptyModelTable 3 buf77 1 = 0 ∧
    GetModelDataBySlot emptyModelTable 3 buf77 2 = 0 ∧
    GetModelDataBySlot emptyModelTable 3 buf77 9 = buf77 9 ∧
    GetModelBoundingBoxBySlot emptyModelTable (-1) (fun _ => 5) 0 = 0 ∧
    GetModelBoundingBoxBySlot emptyModelTable (-1) (fun _ => 5) 9 = 5 ∧
    GetFontDataBySlot emptyFontTable 40 false buf77 0 = 0 ∧
    GetFontDataBySlot emptyFontTable 40 false buf77 1 = 0 ∧
    GetFontDataBySlot emptyFontTable 40 false buf77 7 = buf77 7 ∧
    LoadModelToSlot emptyModelTable ['m'] ⟨0, 2⟩ bbox0 buf77 = (emptyModelTable, -1, buf77) :=
  ⟨(claim_C4_output_buffer_defaults.1 emptyModelTable 3 buf77 (Or.inr (Or.inr rfl))).1,
   (claim_C4_output_buffer_defaults.1 emptyModelTable 3 buf77 (Or.inr (Or.inr rfl))).2.1,
   (claim_C4_output_buffer_defaults.1 emptyModelTable 3 buf77 (Or.inr (Or.inr rfl))).2.2.1,
   (claim_C4_output_buffer_defaults.1 emptyModelTable 3 buf77
     (Or.inr (Or.inr rfl))).2.2.2 9 (by decide),
   (claim_C4_output_buffer_defaults.2.1 emptyModelTable (-1) (fun _ => 5)
     (Or.inl (by decide))).1 0 (by decide),
   (claim_C4_output_buffer_defaults.2.1 emptyModelTable (-1) (fun _ => 5)
     (Or.inl (by decide))).2 9 (by decide),
   (claim_C4_output_buffer_defaults.2.2.1 emptyFontTable 40 buf77
     (Or.inr (Or.inl (by decide)))).1,
   (claim_C4_output_buffer_defaults.2.2.1 emptyFontTable 40 buf77
     (Or.inr (Or.inl (by decide)))).2.1,
   (claim_C4_output_buffer_defaults.2.2.1 emptyFontTable 40 buf77
     (Or.inr (Or.inl (by decide)))).2.2 7 (by decide),
   claim_C4_output_buffer_defaults.2.2.2 emptyModelTable ['m'] ⟨0, 2⟩ bbox0 buf77
     (Or.inr rfl)⟩

/-! ## Lemmas about the text wrapper -/

theorem findWordEnd_eqn (t : List Char) (i : Nat) :
    findWordEnd t i =
      if i < t.length then
        if tget t i = ' ' ∨ tget t i = '\n' then i else findWordEnd t (i + 1)
      else i := by
  unfold findWordEnd
  by_cases h : i < t.length
  · have hf : t.length - i = (t.length - (i + 1)) + 1 := by omega
    rw [hf]
    show (if i < t.length then
        if tget t i = ' ' ∨ tget t i = '\n' then i
        else findWordEndF t (t.length - (i + 1)) (i + 1)
      else i) = _
    rw [if_pos h]
  · have hf : t.length - i = 0 := by omega
    rw [hf, if_neg h]
    rfl

theorem findWordEnd_stop (t : List Char) (i : Nat) (h : i < t.length)
    (hs : tget t i = ' ' ∨ tget t i = '\n') : findWordEnd t i = i := by
  rw [findWordEnd_eqn, if_pos h, if_pos hs]

theorem findWordEnd_go (t : List Char) (i : Nat) (h : i < t.length)
    (hs : ¬(tget t i = ' ' ∨ tget t i = '\n')) :
    findWordEnd t i = findWordEnd t (i + 1) := by
  rw [findWordEnd_eqn, if_pos h, if_neg hs]

theorem findWordEnd_past (t : List Char) (i : Nat) (h : ¬i < t.length) :
    findWordEnd t i = i := by
  rw [findWordEnd_eqn, if_neg h]

theorem findWordEnd_ge (t : List Char) : ∀ i, i ≤ findWordEnd t i := by
  have H : ∀ n i, t.length - i ≤ n → i ≤ findWordEnd t i := by
    intro n
    induction n with
    | zero =>
      intro i hn
      rw [findWordEnd_past t i (by omega)]
    | succ n ih =>
      intro i hn
      by_cases h : i < t.length
      · by_cases hs : tget t i = ' ' ∨ tget t i = '\n'
        · rw [findWordEnd_stop t i h hs]
        · rw [findWordEnd_go t i h hs]
          have := ih (i + 1) (by omega)
          omega
      · rw [findWordEnd_past t i h]
  exact fun i => H (t.length - i) i (le_refl _)

theorem findWordEnd_le_len (t : List Char) : ∀ i, i ≤ t.length → findWordEnd t i ≤ t.length := by
  have H : ∀ n i, t.length - i ≤ n → i ≤ t.length → findWordEnd t i ≤ t.length := by
    intro n
    induction n with
    | zero =>
      intro i hn hi
      rw [findWordEnd_past t i (by omega)]
      omega
    | succ n ih =>
      intro i hn hi
      by_cases h : i < t.length
      · by_cases hs : tget t i = ' ' ∨ tget t i = '\n'
        · rw [findWordEnd_stop t i h hs]; omega
        · rw [findWordEnd_go t i h hs]
          exact ih (i + 1) (by omega) (by omega)
      · rw [findWordEnd_past t i h]; omega
  exact fun i hi => H (t.length - i) i (le_refl _) hi

theorem findWordEnd_gt (t : List Char) (i : Nat) (h : i < t.length)
    (hs : ¬(tget t i = ' ' ∨ tget t i = '\n')) : i < findWordEnd t i := by
  rw [findWordEnd_go t i h hs]
  have := findWordEnd_ge t (i + 1)
  omega

theorem findWordEnd_spec (t : List Char) :
    ∀ i j, i ≤ j → j < findWordEnd t i → tget t j ≠ ' ' ∧ tget t j ≠ '\n' := by
  have H : ∀ n i j, t.length - i ≤ n → i ≤ j → j < findWordEnd t i →
      tget t j ≠ ' ' ∧ tget t j ≠ '\n' := by
    intro n
    induction n with
    | zero =>
      intro i j hn hij hj
      rw [findWordEnd_past t i (by omega)] at hj
      omega
    | succ n ih =>
      intro i j hn hij hj
      by_cases h : i < t.length
      · by_cases hs : tget t i = ' ' ∨ tget t i = '\n'
        · rw [findWordEnd_stop t i h hs] at hj; omega
        · rw [findWordEnd_go t i h hs] at hj
          rcases Nat.eq_or_lt_of_le hij with rfl | hlt
          · push_neg at hs
            exact hs
          · exact ih (i + 1) j (by omega) hlt hj
      · rw [findWordEnd_past t i h] at hj; omega
  exact fun i j hij hj => H (t.length - i) i j (le_refl _) hij hj

theorem wrapSpace_fst (m : List Char → Rat) (B : Nat) (t : List Char) (wordEnd : Nat)
    (s : WrapSt) : (wrapSpace m B t wordEnd s).1 = wordEnd ∨
      (wrapSpace m B t wordEnd s).1 = wordEnd + 1 := by
  unfold wrapSpace
  by_cases hsp : wordEnd < t.length ∧ tget t wordEnd = ' '
  · rw [if_pos hsp]
    exact Or.inr rfl
  · rw [if_neg hsp]
    exact Or.inl rfl

theorem wrapStep_progress (m : List Char → Rat) (maxW : Rat) (B : Nat) (t : List Char)
    (i : Nat) (s : WrapSt) (h : i < t.length) : i < (wrapStep m maxW B t i s).1 := by
  unfold wrapStep
  by_cases hnl : tget t i = '\n'
  · simp [hnl]
  · simp only [hnl, if_false]
    by_cases hsp : findWordEnd t i < t.length ∧ tget t (findWordEnd t i) = ' '
    · unfold wrapSpace
      rw [if_pos hsp]
      have := findWordEnd_ge t i
      simp only []
      omega
    · unfold wrapSpace
      rw [if_neg hsp]
      by_cases hspc : tget t i = ' '
      · exfalso
        have hstop : findWordEnd t i = i := findWordEnd_stop t i h (Or.inl hspc)
        exact hsp (by rw [hstop]; exact ⟨h, hspc⟩)
      · exact findWordEnd_gt t i h (by push_neg; exact ⟨hspc, hnl⟩)

theorem wrapGo_fuel_stable (m : List Char → Rat) (maxW : Rat) (B : Nat) (t : List Char) :
    ∀ fuel k i s, t.length ≤ i + fuel →
      wrapGo m maxW B t (fuel + k) i s = wrapGo m maxW B t fuel i s := by
  intro fuel
  induction fuel with
  | zero =>
    intro k i s hlen
    cases k with
    | zero => rfl
    | succ k' =>
      have hc : ¬(i < t.length ∧ s.out.length + 1 < B) := by
        rintro ⟨h1, _⟩; omega
      have hz : 0 + (k' + 1) = k' + 1 := by omega
      rw [hz]
      show wrapGo m maxW B t (k' + 1) i s = wrapGo m maxW B t 0 i s
      simp only [wrapGo, if_neg hc]
  | succ n ih =>
    intro k i s hlen
    have hre : n + 1 + k = (n + k) + 1 := by omega
    rw [hre]
    by_cases hc : i < t.length ∧ s.out.length + 1 < B
    · simp only [wrapGo, if_pos hc]
      apply ih
      have := wrapStep_progress m maxW B t i s hc.1
      omega
    · simp only [wrapGo, if_neg hc]

theorem wpush_out (s : WrapSt) (c : Char) : (wpush s c).out = s.out ++ [c] := rfl

theorem wpushList_out (cs : List Char) : ∀ s : WrapSt, (wpushList s cs).out = s.out ++ cs := by
  induction cs with
  | nil => intro s; simp [wpushList]
  | cons c cs ih =>
    intro s
    show (wpushList (wpush s c) cs).out = s.out ++ c :: cs
    rw [ih, wpush_out]
    simp

theorem wpushList_clw (cs : List Char) : ∀ s : WrapSt, (wpushList s cs).clw = s.clw := by
  induction cs with
  | nil => intro s; rfl
  | cons c cs ih => intro s; exact ih (wpush s c)

theorem wpushList_lineCount (cs : List Char) :
    ∀ s : WrapSt, (wpushList s cs).lineCount = s.lineCount := by
  induction cs with
  | nil => intro s; rfl
  | cons c cs ih => intro s; exact ih (wpush s c)

theorem measQ_nil (cw : Char → Rat) : measQ cw [] = 0 := rfl

theorem measQ_append (cw : Char → Rat) (a b : List Char) :
    measQ cw (a ++ b) = measQ cw a + measQ cw b := by
  simp [measQ]

theorem measQ_singleton (cw : Char → Rat) (c : Char) : measQ cw [c] = cw c := by
  simp [measQ]

theorem measQ_nonneg {cw : Char → Rat} (hcw : ∀ c, 0 ≤ cw c) (l : List Char) :
    0 ≤ measQ cw l := by
  apply List.sum_nonneg
  intro x hx
  simp only [List.mem_map] at hx
  obtain ⟨c, _, rfl⟩ := hx
  exact hcw c

theorem measQ_dropLast_le {cw : Char → Rat} (hcw : ∀ c, 0 ≤ cw c) (l : List Char) :
    measQ cw l.dropLast ≤ measQ cw l := by
  cases hl : l.getLast? with
  | none =>
    rw [List.getLast?_eq_none_iff] at hl
    subst hl
    simp [measQ]
  | some c =>
    have hne : l ≠ [] := by
      intro h; subst h; simp at hl
    have hdec : l.dropLast ++ [c] = l := by
      have := List.dropLast_append_getLast hne
      rwa [List.getLast_eq_iff_getLast?_eq_some hne |>.mpr hl] at this
    calc measQ cw l.dropLast ≤ measQ cw l.dropLast + cw c := by
          have := hcw c; linarith
      _ = measQ cw (l.dropLast ++ [c]) := by rw [measQ_append, measQ_singleton]
      _ = measQ cw l := by rw [hdec]

theorem linesOfAux_ne_nil : ∀ (l acc : List Char), linesOfAux l acc ≠ [] := by
  intro l
  induction l with
  | nil => intro acc; simp [linesOfAux]
  | cons c rest ih =>
    intro acc
    by_cases h : c = '\n'
    · simp [linesOfAux, h]
    · simpa [linesOfAux, h] using ih (c :: acc)

theorem linesOf_ne_nil (l : List Char) : linesOf l ≠ [] := linesOfAux_ne_nil l []

theorem linesOfAux_append_char (c : Char) (hc : c ≠ '\n') :
    ∀ (l acc : List Char),
      linesOfAux (l ++ [c]) acc =
        (linesOfAux l acc).dropLast ++ [(linesOfAux l acc).getLastD [] ++ [c]] := by
  intro l
  induction l with
  | nil =>
    intro acc
    simp [linesOfAux, hc]
  | cons a rest ih =>
    intro acc
    by_cases ha : a = '\n'
    · subst ha
      have h1 : linesOfAux (('\n' :: rest) ++ [c]) acc =
          acc.reverse :: linesOfAux (rest ++ [c]) [] := by
        simp [linesOfAux]
      have h2 : linesOfAux ('\n' :: rest) acc = acc.reverse :: linesOfAux rest [] := by
        simp [linesOfAux]
      rw [h1, h2, ih []]
      have hne : linesOfAux rest ([] : List Char) ≠ [] := linesOfAux_ne_nil rest []
      rw [List.dropLast_cons_of_ne_nil hne]
      have hgd : (acc.reverse :: linesOfAux rest []).getLastD ([] : List Char) =
          (linesOfAux rest []).getLastD [] := by
        rw [List.getLastD_cons, List.getLastD_eq_getLast?, List.getLastD_eq_getLast?,
          List.getLast?_eq_getLast _ hne]
        simp
      rw [hgd]
      simp
    · have h1 : linesOfAux ((a :: rest) ++ [c]) acc = linesOfAux (rest ++ [c]) (a :: acc) := by
        simp [linesOfAux, ha]
      have h2 : linesOfAux (a :: rest) acc = linesOfAux rest (a :: acc) := by
        simp [linesOfAux, ha]
      rw [h1, h2, ih (a :: acc)]

theorem linesOfAux_append_nl :
    ∀ (l acc : List Char), linesOfAux (l ++ ['\n']) acc = linesOfAux l acc ++ [[]] := by
  intro l
  induction l with
  | nil => intro acc; simp [linesOfAux]
  | cons a rest ih =>
    intro acc
    by_cases ha : a = '\n'
    · subst ha
      have h1 : linesOfAux (('\n' :: rest) ++ ['\n']) acc =
          acc.reverse :: linesOfAux (rest ++ ['\n']) [] := by
        simp [linesOfAux]
      have h2 : linesOfAux ('\n' :: rest) acc = acc.reverse :: linesOfAux rest [] := by
        simp [linesOfAux]
      rw [h1, h2, ih []]
      simp
    · have h1 : linesOfAux ((a :: rest) ++ ['\n']) acc =
          linesOfAux (rest ++ ['\n']) (a :: acc) := by
        simp [linesOfAux, ha]
      have h2 : linesOfAux (a :: rest) acc = linesOfAux rest (a :: acc) := by
        simp [linesOfAux, ha]
      rw [h1, h2, ih (a :: acc)]

theorem linesOf_append_char (l : List Char) (c : Char) (hc : c ≠ '\n') :
    linesOf (l ++ [c]) = (linesOf l).dropLast ++ [(linesOf l).getLastD [] ++ [c]] :=
  linesOfAux_append_char c hc l []

theorem linesOf_append_nl (l : List Char) : linesOf (l ++ ['\n']) = linesOf l ++ [[]] :=
  linesOfAux_append_nl l []

theorem lastLine_nil : lastLine [] = [] := rfl

theorem lastLine_append_char (l : List Char) (c : Char) (hc : c ≠ '\n') :
    lastLine (l ++ [c]) = lastLine l ++ [c] := by
  unfold lastLine
  rw [List.reverse_append]
  simp only [List.reverse_cons, List.reverse_nil, List.nil_append, List.singleton_append]
  rw [List.takeWhile_cons_of_pos (by simp [hc])]
  simp

theorem lastLine_append_nl (l : List Char) : lastLine (l ++ ['\n']) = [] := by
  unfold lastLine
  rw [List.reverse_append]
  simp only [List.reverse_cons, List.reverse_nil, List.nil_append, List.singleton_append]
  rw [List.takeWhile_cons_of_neg (by simp)]
  simp

theorem linesOf_getLastD : ∀ l : List Char, (linesOf l).getLastD [] = lastLine l := by
  intro l
  induction l using List.reverseRecOn with
  | nil => rfl
  | append_singleton l c ih =>
    by_cases hc : c = '\n'
    · subst hc
      rw [linesOf_append_nl, lastLine_append_nl, List.getLastD_concat]
    · rw [linesOf_append_char l c hc, lastLine_append_char l c hc, List.getLastD_concat, ih]

theorem linesOf_eq_done_last (l : List Char) : linesOf l = doneLines l ++ [lastLine l] := by
  rcases List.eq_nil_or_concat (linesOf l) with h | ⟨L, b, hLb⟩
  · exact absurd h (linesOf_ne_nil l)
  · rw [List.concat_eq_append] at hLb
    have hd : doneLines l = L := by
      unfold doneLines
      rw [hLb, List.dropLast_concat]
    have hb : lastLine l = b := by
      rw [← linesOf_getLastD l, hLb, List.getLastD_concat]
    rw [hLb, hd, hb]

theorem doneLines_append_char (l : List Char) (c : Char) (hc : c ≠ '\n') :
    doneLines (l ++ [c]) = doneLines l := by
  unfold doneLines
  rw [linesOf_append_char l c hc, List.dropLast_concat]

theorem doneLines_append_nl (l : List Char) :
    doneLines (l ++ ['\n']) = doneLines l ++ [lastLine l] := by
  have h : doneLines (l ++ ['\n']) = linesOf l := by
    unfold doneLines
    rw [linesOf_append_nl, List.dropLast_concat]
  rw [h]
  exact linesOf_eq_done_last l

theorem lastLine_append_free (l : List Char) :
    ∀ w : List Char, (∀ c ∈ w, c ≠ '\n') → lastLine (l ++ w) = lastLine l ++ w := by
  intro w
  induction w using List.reverseRecOn generalizing l with
  | nil => intro _; simp
  | append_singleton w c ih =>
    intro hw
    rw [← List.append_assoc, lastLine_append_char _ c (hw c (by simp)),
      ih l (fun d hd => hw d (by simp [hd])), List.append_assoc]

theorem doneLines_append_free (l : List Char) :
    ∀ w : List Char, (∀ c ∈ w, c ≠ '\n') → doneLines (l ++ w) = doneLines l := by
  intro w
  induction w using List.reverseRecOn generalizing l with
  | nil => intro _; simp
  | append_singleton w c ih =>
    intro hw
    rw [← List.append_assoc, doneLines_append_char _ c (hw c (by simp)),
      ih l (fun d hd => hw d (by simp [hd]))]

theorem lastLine_getLast_space (l : List Char) :
    (lastLine l).getLast? = some ' ' ↔ l.getLast? = some ' ' := by
  cases hr : l.reverse with
  | nil =>
    have hl : l = [] := by
      have := congrArg List.reverse hr
      simpa using this
    subst hl
    simp [lastLine_nil]
  | cons a r =>
    have hlast : l.getLast? = some a := by
      rw [← List.head?_reverse, hr]
      rfl
    have hlastLine : lastLine l = (List.takeWhile (fun c => c != '\n') (a :: r)).reverse := by
      unfold lastLine
      rw [hr]
    by_cases ha : a = '\n'
    · subst ha
      rw [hlastLine, List.takeWhile_cons_of_neg (by simp)]
      simp [hlast]
    · rw [hlastLine, List.takeWhile_cons_of_pos (by simp [ha]), hlast]
      simp [List.reverse_cons, List.getLast?_concat]

theorem invalid_iff_font (st : FontTable) (slot : Int) :
    (slot < 0 ∨ 32 ≤ slot ∨ (!(st slot.toNat).isLoaded) = true) ↔
      IsFontSlotValid st slot = false := by
  unfold IsFontSlotValid
  by_cases hr : slot < 0 ∨ 32 ≤ slot
  · rw [if_pos hr]
    rcases hr with h | h <;> simp [h]
  · rw [if_neg hr]
    push_neg at hr
    constructor
    · intro h
      rcases h with h | h | h
      · omega
      · omega
      · simpa using h
    · intro h
      exact Or.inr (Or.inr (by simp [h]))

/-- C8: WrapTextBySlot fails with -1, writing nothing, exactly when the handle
is invalid, the text or output buffer is NULL, fontSize is nonpositive,
maxWidth is nonpositive, or the buffer capacity is nonpositive; and a valid
call on empty input text is the distinguished success case: empty output,
line count 0 (not 1, not a failure), with only the terminating marker written
at index 0. -/
theorem claim_C8_validation_and_empty_input :
    ∀ (mc : FontR → List Char → Rat → Rat → Rat) (st : FontTable) (slot : Int)
      (textOpt : Option (List Char)) (fontSize spacing maxWidth : Rat)
      (outNull : Bool) (bufferSize : Int),
      (WrapTextBySlot mc st slot textOpt fontSize spacing maxWidth outNull bufferSize = none ↔
        (IsFontSlotValid st slot = false ∨ textOpt = none ∨ outNull = true ∨
          fontSize ≤ 0 ∨ maxWidth ≤ 0 ∨ bufferSize ≤ 0)) ∧
      (IsFontSlotValid st slot = true → outNull = false → 0 < fontSize → 0 < maxWidth →
        0 < bufferSize →
        WrapTextBySlot mc st slot (some []) fontSize spacing maxWidth outNull bufferSize =
          some { out := [], lineCount := 0, maxWrite := 0 }) := by
  intro mc st slot textOpt fontSize spacing maxWidth outNull bufferSize
  constructor
  · by_cases hC : slot < 0 ∨ 32 ≤ slot ∨ (!(st slot.toNat).isLoaded) = true ∨
        textOpt = none ∨ outNull = true ∨ fontSize ≤ 0 ∨ maxWidth ≤ 0 ∨ bufferSize ≤ 0
    · have hres : WrapTextBySlot mc st slot textOpt fontSize spacing maxWidth outNull
          bufferSize = none := by
        unfold WrapTextBySlot
        rw [if_pos hC]
      rw [hres]
      simp only [true_iff]
      rcases hC with h | h | h | h
      · exact Or.inl ((invalid_iff_font st slot).mp (Or.inl h))
      · exact Or.inl ((invalid_iff_font st slot).mp (Or.inr (Or.inl h)))
      · exact Or.inl ((invalid_iff_font st slot).mp (Or.inr (Or.inr h)))
      · tauto
    · have hres : ∃ r, WrapTextBySlot mc st slot textOpt fontSize spacing maxWidth outNull
          bufferSize = some r := by
        unfold WrapTextBySlot
        rw [if_neg hC]
        by_cases ht : textOpt.getD [] = []
        · exact ⟨_, by rw [if_pos ht]⟩
        · exact ⟨_, by rw [if_neg ht]⟩
      obtain ⟨r, hr⟩ := hres
      rw [hr]
      simp only [Option.some_ne_none, false_iff]
      push_neg at hC
      obtain ⟨h1, h2, h3, h4, h5, h6, h7, h8⟩ := hC
      intro hbad
      rcases hbad with h | h | h | h | h | h
      · rcases (invalid_iff_font st slot).mpr h with h | h | h
        · omega
        · omega
        · exact h3 h
      · exact h4 h
      · exact h5 h
      · linarith
      · linarith
      · omega
  · intro hvalid hnull hfs hmw hbs
    have hC : ¬(slot < 0 ∨ 32 ≤ slot ∨ (!(st slot.toNat).isLoaded) = true ∨
        (some ([] : List Char) = none) ∨ outNull = true ∨ fontSize ≤ 0 ∨ maxWidth ≤ 0 ∨
        bufferSize ≤ 0) := by
      intro h
      rcases h with h | h | h | h | h | h | h | h
      · rw [(invalid_iff_font st slot).mp (Or.inl h)] at hvalid; cases hvalid
      · rw [(invalid_iff_font st slot).mp (Or.inr (Or.inl h))] at hvalid; cases hvalid
      · rw [(invalid_iff_font st slot).mp (Or.inr (Or.inr h))] at hvalid; cases hvalid
      · cases h
      · rw [hnull] at h; cases h
      · linarith
      · linarith
      · omega
    unfold WrapTextBySlot
    rw [if_neg hC]
    rfl

/-- Witness for C8: a concrete valid call on empty input yields empty output
and line count 0. -/
theorem claim_C8_witness :
    WrapTextBySlot (addMeasure cw1) fontTable1 0 (some []) 1 0 5 false 10 =
      some { out := [], lineCount := 0, maxWrite := 0 } :=
  (claim_C8_validation_and_empty_input (addMeasure cw1) fontTable1 0 (some []) 1 0 5
      false 10).2 (by decide) rfl (by norm_num) (by norm_num) (by norm_num)

/-- C2 is a code bug: at the failing input "a\nb" (every character 1 unit wide,
budget 10, buffer 64) the explicit-line-break branch copies the segment from
the input again even though the word placement already wrote it, so the output
is "aa\nb": 2 lines as claimed, but the character before the break appears
twice, and the concatenated content is "aa" then "b" instead of "a" then "b". -/
theorem claim_C2_newline_flush_duplicates :
    WrapTextBySlot (addMeasure cw1) fontTable1 0 (some ['a', '\n', 'b']) 1 0 10 false 64 =
      some { out := ['a', 'a', '\n', 'b'], lineCount := 2, maxWrite := 4 } := by
  with_unfolding_all decide

/-- C10 is a code bug: with text "xx", each character 3 units wide, budget 4
and bufferSize 3, the character fallback writes a break and a character in the
same iteration, leaving outIndex = 3 = bufferSize, and the final terminator is
then written at index 3, one past the last valid buffer index: maxWrite equals
bufferSize instead of staying strictly below it. -/
theorem claim_C10_terminator_write_at_bufferSize :
    WrapTextBySlot (addMeasure cw3) fontTable1 0 (some ['x', 'x']) 1 0 4 false 3 =
      some { out := ['x', '\n', 'x'], lineCount := 2, maxWrite := 3 } := by
  with_unfolding_all decide

set_option maxRecDepth 10000 in
/-- Counterexample to C3 as stated: a single word of 256 characters, each 1
unit wide, against budget 255. The word's measured width is 256, which
exceeds maxWidth, so the claim requires the word to be emitted in full; but
the implementation measures and copies only the first 255 characters of a
word (its word buffer holds at most 255 characters), that truncated prefix
measures 255 which does not exceed the budget, and the whole-word branch
copies just 255 characters: the 256th character is dropped even though the
buffer (1000) has ample room. -/
theorem claim_C3_counterexample :
    WrapTextBySlot (addMeasure cw1) fontTable1 0 (some (List.replicate 256 'a')) 1 0 255
        false 1000 =
      some { out := List.replicate 255 'a', lineCount := 1, maxWrite := 255 } ∧
    measQ cw1 (List.replicate 256 'a') = 256 := by
  constructor
  · with_unfolding_all decide
  · with_unfolding_all decide

theorem sub_same (t : List Char) (a : Nat) : sub t a a = [] := by
  simp [sub]

theorem wrapSt_out_clw_lineStart (s : WrapSt) (q : Rat) (n : Nat) :
    ({ s with clw := q, lineStart := n } : WrapSt).out = s.out := rfl

theorem sub_cons (t : List Char) (a b : Nat) (hab : a < b) (ha : a < t.length) :
    sub t a b = tget t a :: sub t (a + 1) b := by
  unfold sub tget
  rw [List.drop_eq_getElem_cons ha]
  have hb : b - a = (b - (a + 1)) + 1 := by omega
  rw [hb, List.take_succ_cons, List.getD_eq_getElem t ' ' ha]

theorem wrapTrim_len (s : WrapSt) : (wrapTrim s).out.length ≤ s.out.length := by
  unfold wrapTrim
  split
  · simp
  · exact le_refl _

theorem wrapNl_len (B : Nat) (s : WrapSt) :
    (wrapNl B s).out.length ≤ s.out.length + 1 := by
  unfold wrapNl
  split
  · simp [wpush]
  · omega

theorem wrapSt_clw_upd (s : WrapSt) (q : Rat) (n : Nat) :
    ({ s with clw := q, lineStart := n } : WrapSt).clw = q := rfl

theorem wrapBreak_len (maxW : Rat) (B : Nat) (ws : Nat) (wsz : Rat) (s : WrapSt) :
    (wrapBreak maxW B ws wsz s).out.length ≤ s.out.length + 1 := by
  unfold wrapBreak
  split
  · rw [wrapSt_out_clw_lineStart]
    have h1 := wrapNl_len B (wrapTrim s)
    have h2 := wrapTrim_len s
    omega
  · omega

theorem charFallback_emits (m : List Char → Rat) (maxW : Rat) (B : Nat) (t : List Char)
    (wordEnd : Nat) (hwe : wordEnd ≤ t.length) :
    ∀ (fuel j : Nat) (s : WrapSt), j + fuel = wordEnd →
      (∀ j', j ≤ j' → j' < wordEnd → tget t j' ≠ ' ' ∧ tget t j' ≠ '\n') →
      s.out.length + 2 * fuel + 1 ≤ B →
      ∃ tail, (charFallback m maxW B t wordEnd fuel j s).out = s.out ++ tail ∧
        tail.filter (fun c => !(c == '\n' || c == ' ')) = sub t j wordEnd := by
  intro fuel
  induction fuel with
  | zero =>
    intro j s hj hc hB
    refine ⟨[], by simp [charFallback], ?_⟩
    have : j = wordEnd := by omega
    subst this
    simp [sub_same]
  | succ fuel ih =>
    intro j s hj hc hB
    have hjlt : j < wordEnd := by omega
    have hcond : j < wordEnd ∧ s.out.length + 1 < B := ⟨hjlt, by omega⟩
    have hchar := hc j (le_refl j) hjlt
    show ∃ tail,
      (if j < wordEnd ∧ s.out.length + 1 < B then
        let c := tget t j
        let charSize := m [c]
        let s1 :=
          if maxW < s.clw + charSize ∧ 0 < s.clw then
            let sb := wpush s '\n'
            { sb with lineCount := sb.lineCount + 1, clw := 0 }
          else s
        let s2 := { wpush s1 c with clw := s1.clw + charSize }
        charFallback m maxW B t wordEnd fuel (j + 1) s2
      else s).out = s.out ++ tail ∧ _
    rw [if_pos hcond]
    set s1 := if maxW < s.clw + m [tget t j] ∧ 0 < s.clw then
        let sb := wpush s '\n'
        { sb with lineCount := sb.lineCount + 1, clw := 0 }
      else s with hs1
    have hs1out : s1.out = s.out ∨ s1.out = s.out ++ ['\n'] := by
      rw [hs1]
      by_cases hbr : maxW < s.clw + m [tget t j] ∧ 0 < s.clw
      · rw [if_pos hbr]
        exact Or.inr rfl
      · rw [if_neg hbr]
        exact Or.inl rfl
    set s2 : WrapSt := { wpush s1 (tget t j) with clw := s1.clw + m [tget t j] } with hs2
    have hs2out : s2.out = s1.out ++ [tget t j] := rfl
    have hs2len : s2.out.length ≤ s.out.length + 2 := by
      rw [hs2out]
      rcases hs1out with h | h <;> simp [h]
    obtain ⟨tail2, ht2, hf2⟩ := ih (j + 1) s2 (by omega)
      (fun j' hj' hlt => hc j' (by omega) hlt) (by omega)
    have hcp : (fun c => !(c == '\n' || c == ' ')) (tget t j) = true := by
      simp only [Bool.not_eq_true']
      simp [hchar.1, hchar.2]
    rcases hs1out with h1 | h1
    · refine ⟨tget t j :: tail2, ?_, ?_⟩
      · rw [ht2, hs2out, h1]
        simp
      · rw [sub_cons t j wordEnd hjlt (by omega), ← hf2]
        simp [hchar.1, hchar.2]
    · refine ⟨'\n' :: tget t j :: tail2, ?_, ?_⟩
      · rw [ht2, hs2out, h1]
        simp
      · rw [sub_cons t j wordEnd hjlt (by omega), ← hf2]
        simp [hchar.1, hchar.2]

theorem wrapSpace_out (m : List Char → Rat) (B : Nat) (t : List Char) (wordEnd : Nat)
    (s : WrapSt) : (wrapSpace m B t wordEnd s).2.out = s.out ∨
      (wrapSpace m B t wordEnd s).2.out = s.out ++ [' '] := by
  unfold wrapSpace
  by_cases hsp : wordEnd < t.length ∧ tget t wordEnd = ' '
  · rw [if_pos hsp]
    by_cases hro : s.out.length + 1 < B
    · right
      show (if s.out.length + 1 < B then
          ({ wpush s ' ' with clw := s.clw + m [' '] } : WrapSt) else s).out = s.out ++ [' ']
      rw [if_pos hro]
      rfl
    · left
      show (if s.out.length + 1 < B then
          ({ wpush s ' ' with clw := s.clw + m [' '] } : WrapSt) else s).out = s.out
      rw [if_neg hro]
  · rw [if_neg hsp]
    left
    rfl

/-- C3 (amended): for every word of the input whose measured width, as the
implementation computes it (on the word's first 255 characters, the capacity
of its word buffer), exceeds maxWidth, and given an output buffer with room
for the fallback (two bytes per word character plus three), the word-placement
step emits every character of the word in input order with only inserted line
breaks (and one optional following space) interleaved: nothing is dropped.
The cursor always moves past the word, and the main loop terminates: fuel
textLen already runs it to completion, extra fuel changes nothing. The
amendment is forced by the word-buffer truncation: a word of 256 or more
characters is measured and copied through its first 255 characters only, so
such a word can lose characters (claim_C3_counterexample). -/
theorem claim_C3_oversized_word_emitted :
    ∀ (m : List Char → Rat) (maxW : Rat) (B : Nat) (t : List Char),
      (∀ (i : Nat) (s : WrapSt), i < t.length →
        tget t i ≠ '\n' → tget t i ≠ ' ' →
        maxW < m (sub t i (i + min (findWordEnd t i - i) 255)) →
        s.out.length + 2 * (findWordEnd t i - i) + 3 ≤ B →
        ((wrapStep m maxW B t i s).1 = findWordEnd t i ∨
          (wrapStep m maxW B t i s).1 = findWordEnd t i + 1) ∧
        ∃ pre tail, (wrapStep m maxW B t i s).2.out = pre ++ tail ∧
          pre.length ≤ s.out.length + 1 ∧
          tail.filter (fun c => !(c == '\n' || c == ' ')) = sub t i (findWordEnd t i)) ∧
      (∀ (k : Nat) (s0 : WrapSt),
        wrapGo m maxW B t (t.length + k) 0 s0 = wrapGo m maxW B t t.length 0 s0) := by
  intro m maxW B t
  constructor
  · intro i s hi hnl hnsp hbig hB
    have hstep : wrapStep m maxW B t i s =
        wrapSpace m B t (findWordEnd t i)
          (wrapPlace m maxW B t i (findWordEnd t i) (min (findWordEnd t i - i) 255)
            (sub t i (i + min (findWordEnd t i - i) 255))
            (m (sub t i (i + min (findWordEnd t i - i) 255)))
            (wrapBreak maxW B i (m (sub t i (i + min (findWordEnd t i - i) 255))) s)) := by
      unfold wrapStep
      rw [if_neg hnl]
    set we := findWordEnd t i with hwe
    set wsz := m (sub t i (i + min (we - i) 255)) with hwsz
    set s1 := wrapBreak maxW B i wsz s with hs1
    have hs1len : s1.out.length ≤ s.out.length + 1 := wrapBreak_len maxW B i wsz s
    have hwele : we ≤ t.length := findWordEnd_le_len t i (le_of_lt hi)
    have hwege : i ≤ we := findWordEnd_ge t i
    have hplace : wrapPlace m maxW B t i we (min (we - i) 255)
        (sub t i (i + min (we - i) 255)) wsz s1 =
        charFallback m maxW B t we (we - i) i s1 := by
      unfold wrapPlace
      rw [if_pos hbig]
    obtain ⟨tail, htail, hfil⟩ :=
      charFallback_emits m maxW B t we hwele (we - i) i s1 (by omega)
        (fun j' hj' hlt => findWordEnd_spec t i j' hj' hlt) (by omega)
    rw [hstep, hplace]
    refine ⟨wrapSpace_fst m B t we _, ?_⟩
    rcases wrapSpace_out m B t we (charFallback m maxW B t we (we - i) i s1) with hout | hout
    · exact ⟨s1.out, tail, by rw [hout, htail], hs1len, hfil⟩
    · refine ⟨s1.out, tail ++ [' '], ?_, hs1len, ?_⟩
      · rw [hout, htail, List.append_assoc]
      · rw [List.filter_append, hfil]
        simp
  · intro k s0
    exact wrapGo_fuel_stable m maxW B t t.length k 0 s0 (by omega)

/-- Witness for C3 (amended) on the concrete oversized word "aa" (each
character 1 unit wide, budget 1, buffer 10): the step moves past the word and
extra fuel does not change the finished run. -/
theorem claim_C3_witness :
    ((wrapStep (fun l => measQ cw1 l) 1 10 ['a', 'a'] 0 initWrapSt).1 =
        findWordEnd ['a', 'a'] 0 ∨
      (wrapStep (fun l => measQ cw1 l) 1 10 ['a', 'a'] 0 initWrapSt).1 =
        findWordEnd ['a', 'a'] 0 + 1) ∧
    wrapGo (fun l => measQ cw1 l) 1 10 ['a', 'a'] ((['a', 'a'] : List Char).length + 5) 0
        initWrapSt =
      wrapGo (fun l => measQ cw1 l) 1 10 ['a', 'a'] (['a', 'a'] : List Char).length 0
        initWrapSt :=
  ⟨((claim_C3_oversized_word_emitted (fun l => measQ cw1 l) 1 10 ['a', 'a']).1 0 initWrapSt
      (by decide) (by decide) (by decide)
      (by with_unfolding_all decide) (by decide)).1,
   (claim_C3_oversized_word_emitted (fun l => measQ cw1 l) 1 10 ['a', 'a']).2 5 initWrapSt⟩

theorem measQ_trim1_le {cw : Char → Rat} (hcw : ∀ c, 0 ≤ cw c) (l : List Char) :
    measQ cw (trim1 l) ≤ measQ cw l := by
  unfold trim1
  split
  · exact measQ_dropLast_le hcw l
  · exact le_refl _

theorem measQ_dropLast_getLast {cw : Char → Rat} {l : List Char} {c : Char}
    (h : l.getLast? = some c) : measQ cw l.dropLast + cw c = measQ cw l := by
  have hne : l ≠ [] := by
    intro hl; subst hl; simp at h
  have hdec : l.dropLast ++ [c] = l := by
    have := List.dropLast_append_getLast hne
    rwa [List.getLast_eq_iff_getLast?_eq_some hne |>.mpr h] at this
  conv_rhs => rw [← hdec]
  rw [measQ_append, measQ_singleton]

theorem sub_nil (t : List Char) (a b : Nat) (h : b ≤ a) : sub t a b = [] := by
  unfold sub
  have : b - a = 0 := by omega
  rw [this, List.take_zero]

theorem sub_length (t : List Char) (a b : Nat) (h : b ≤ t.length) :
    (sub t a b).length = b - a := by
  unfold sub
  rw [List.length_take, List.length_drop]
  omega

theorem sub_forall (t : List Char) (P : Char → Prop) :
    ∀ (a b : Nat), b ≤ t.length → (∀ j, a ≤ j → j < b → P (tget t j)) →
      ∀ c ∈ sub t a b, P c := by
  have H : ∀ (n a b : Nat), b - a ≤ n → b ≤ t.length →
      (∀ j, a ≤ j → j < b → P (tget t j)) → ∀ c ∈ sub t a b, P c := by
    intro n
    induction n with
    | zero =>
      intro a b hn hb hP c hc
      rw [sub_nil t a b (by omega)] at hc
      cases hc
    | succ n ih =>
      intro a b hn hb hP c hc
      by_cases hab : a < b
      · rw [sub_cons t a b hab (by omega)] at hc
        rcases List.mem_cons.mp hc with heq | hmem
        · rw [heq]
          exact hP a (le_refl a) hab
        · exact ih (a + 1) b (by omega) hb (fun j hj hjb => hP j (by omega) hjb) c hmem
      · rw [sub_nil t a b (by omega)] at hc
        cases hc
  exact fun a b hb hP => H (b - a) a b (le_refl _) hb hP

theorem sub_subset (t : List Char) (a b : Nat) : ∀ c ∈ sub t a b, c ∈ t := by
  intro c hc
  unfold sub at hc
  exact List.mem_of_mem_drop (List.mem_of_mem_take hc)

theorem trim1_of_space {l : List Char} (h : l.getLast? = some ' ') :
    trim1 l = l.dropLast := by
  unfold trim1
  rw [if_pos h]

theorem trim1_of_no_space {l : List Char} (h : ¬l.getLast? = some ' ') : trim1 l = l := by
  unfold trim1
  rw [if_neg h]


theorem wrapSt_out_lc (s : WrapSt) (n : Nat) :
    ({ s with lineCount := n } : WrapSt).out = s.out := rfl

theorem wrapTrim_key {cw : Char → Rat} {maxW : Rat} {s : WrapSt}
    (hcw : ∀ c, 0 ≤ cw c)
    (hlast : measQ cw (lastLine s.out) = s.clw)
    (hdisj : s.clw ≤ maxW ∨
      ((lastLine s.out).getLast? = some ' ' ∧ s.clw ≤ maxW + cw ' ')) :
    measQ cw (trim1 (lastLine (wrapTrim s).out)) ≤ maxW ∧
    doneLines (wrapTrim s).out = doneLines s.out := by
  unfold wrapTrim
  by_cases htr : s.out.getLast? = some ' '
  · rw [if_pos htr]
    have hne : s.out ≠ [] := by
      intro hl
      rw [hl] at htr
      simp at htr
    have hdec : s.out.dropLast ++ [' '] = s.out := by
      have := List.dropLast_append_getLast hne
      rwa [List.getLast_eq_iff_getLast?_eq_some hne |>.mpr htr] at this
    have hll : lastLine s.out = lastLine s.out.dropLast ++ [' '] := by
      conv_lhs => rw [← hdec]
      exact lastLine_append_char _ ' ' (by decide)
    have hmeas : measQ cw (lastLine s.out.dropLast) + cw ' ' = s.clw := by
      rw [← hlast, hll, measQ_append, measQ_singleton]
    have hbound : measQ cw (lastLine s.out.dropLast) ≤ maxW := by
      rcases hdisj with h | h
      · have := hcw ' '
        linarith
      · linarith [h.2]
    refine ⟨le_trans (measQ_trim1_le hcw _) hbound, ?_⟩
    show doneLines s.out.dropLast = doneLines s.out
    conv_rhs => rw [← hdec]
    exact (doneLines_append_char _ ' ' (by decide)).symm
  · rw [if_neg htr]
    have hnotr : ¬(lastLine s.out).getLast? = some ' ' := by
      intro h
      exact htr ((lastLine_getLast_space s.out).mp h)
    have hle : s.clw ≤ maxW := by
      rcases hdisj with h | h
      · exact h
      · exact absurd h.1 hnotr
    rw [trim1_of_no_space hnotr, hlast]
    exact ⟨hle, rfl⟩

theorem wrapBreak_inv {cw : Char → Rat} {maxW : Rat} {B ws : Nat} {wsz : Rat} {s : WrapSt}
    (hcw : ∀ c, 0 ≤ cw c) (hwszle : wsz ≤ maxW)
    (h0 : 0 ≤ s.clw)
    (hdone : ∀ l ∈ doneLines s.out, measQ cw (trim1 l) ≤ maxW)
    (hlast : measQ cw (lastLine s.out) = s.clw)
    (hdisj : s.clw ≤ maxW ∨
      ((lastLine s.out).getLast? = some ' ' ∧ s.clw ≤ maxW + cw ' ')) :
    0 ≤ (wrapBreak maxW B ws wsz s).clw ∧
    (wrapBreak maxW B ws wsz s).clw + wsz ≤ maxW ∧
    (∀ l ∈ doneLines (wrapBreak maxW B ws wsz s).out, measQ cw (trim1 l) ≤ maxW) ∧
    (measQ cw (lastLine (wrapBreak maxW B ws wsz s).out) = (wrapBreak maxW B ws wsz s).clw ∨
      (measQ cw (trim1 (lastLine (wrapBreak maxW B ws wsz s).out)) ≤ maxW ∧
        B ≤ (wrapBreak maxW B ws wsz s).out.length + 1)) := by
  unfold wrapBreak
  by_cases hbr : 0 < s.clw ∧ maxW < s.clw + wsz
  case neg =>
    rw [if_neg hbr]
    push_neg at hbr
    have hclw : s.clw + wsz ≤ maxW := by
      by_cases hpos : 0 < s.clw
      · exact le_of_not_lt (fun hgt => absurd (hbr hpos) (not_le.mpr hgt))
      · have hz : s.clw = 0 := le_antisymm (not_lt.mp hpos) h0
        rw [hz, zero_add]
        exact hwszle
    exact ⟨h0, hclw, hdone, Or.inl hlast⟩
  case pos =>
    rw [if_pos hbr]
    simp only [wrapSt_clw_upd, wrapSt_out_clw_lineStart]
    obtain ⟨hKey1, hKey2⟩ := wrapTrim_key hcw hlast hdisj
    refine ⟨le_rfl, by simpa using hwszle, ?_, ?_⟩
    · unfold wrapNl
      by_cases hro : (wrapTrim s).out.length + 1 < B
      · rw [if_pos hro]
        show ∀ l ∈ doneLines ({ wpush (wrapTrim s) '\n' with
            lineCount := (wpush (wrapTrim s) '\n').lineCount + 1 } : WrapSt).out,
          measQ cw (trim1 l) ≤ maxW
        rw [wrapSt_out_lc, wpush_out, doneLines_append_nl]
        intro l hl
        rcases List.mem_append.mp hl with h | h
        · exact hdone l (hKey2 ▸ h)
        · rcases List.mem_singleton.mp h with rfl
          exact hKey1
      · rw [if_neg hro]
        rw [hKey2]
        exact hdone
    · unfold wrapNl
      by_cases hro : (wrapTrim s).out.length + 1 < B
      · rw [if_pos hro]
        left
        show measQ cw (lastLine ({ wpush (wrapTrim s) '\n' with
            lineCount := (wpush (wrapTrim s) '\n').lineCount + 1 } : WrapSt).out) = (0 : Rat)
        rw [wrapSt_out_lc, wpush_out, lastLine_append_nl]
        rfl
      · rw [if_neg hro]
        right
        exact ⟨hKey1, by omega⟩

theorem wrapSt_out_clw (s : WrapSt) (q : Rat) :
    ({ s with clw := q } : WrapSt).out = s.out := rfl

theorem wrapSt_clw_clw (s : WrapSt) (q : Rat) :
    ({ s with clw := q } : WrapSt).clw = q := rfl

theorem wrapPlace_inv {cw : Char → Rat} {maxW : Rat} {B : Nat} {m : List Char → Rat}
    {t : List Char} {ws we wl : Nat} {wb : List Char} {wsz : Rat} {s : WrapSt}
    (hcw : ∀ c, 0 ≤ cw c)
    (hwszeq : wsz = measQ cw wb)
    (hnl : ∀ c ∈ wb, c ≠ '\n')
    (hlen : wb.length = wl)
    (hnofb : ¬maxW < wsz)
    (h0 : 0 ≤ s.clw)
    (hsum : s.clw + wsz ≤ maxW)
    (hdone : ∀ l ∈ doneLines s.out, measQ cw (trim1 l) ≤ maxW)
    (hdisj : measQ cw (lastLine s.out) = s.clw ∨
      (measQ cw (trim1 (lastLine s.out)) ≤ maxW ∧ B ≤ s.out.length + 1)) :
    0 ≤ (wrapPlace m maxW B t ws we wl wb wsz s).clw ∧
    (wrapPlace m maxW B t ws we wl wb wsz s).clw ≤ maxW ∧
    (∀ l ∈ doneLines (wrapPlace m maxW B t ws we wl wb wsz s).out,
      measQ cw (trim1 l) ≤ maxW) ∧
    (measQ cw (lastLine (wrapPlace m maxW B t ws we wl wb wsz s).out) =
        (wrapPlace m maxW B t ws we wl wb wsz s).clw ∨
      (measQ cw (trim1 (lastLine (wrapPlace m maxW B t ws we wl wb wsz s).out)) ≤ maxW ∧
        B ≤ (wrapPlace m maxW B t ws we wl wb wsz s).out.length + 1)) := by
  have hwsz0 : 0 ≤ wsz := hwszeq ▸ measQ_nonneg hcw wb
  unfold wrapPlace
  rw [if_neg hnofb]
  by_cases hro : s.out.length + wl < B
  · rw [if_pos hro]
    simp only [wrapSt_out_clw, wrapSt_clw_clw, wpushList_out]
    rcases hdisj with hA | h2
    · refine ⟨add_nonneg h0 hwsz0, hsum, ?_, ?_⟩
      · rw [doneLines_append_free s.out wb hnl]
        exact hdone
      · left
        rw [lastLine_append_free s.out wb hnl, measQ_append, hA, hwszeq]
    · have hwl : wl = 0 := by omega
      have hwb : wb = [] := List.length_eq_zero.mp (by omega)
      subst hwb
      simp only [List.append_nil]
      refine ⟨add_nonneg h0 hwsz0, hsum, hdone, Or.inr ⟨h2.1, h2.2⟩⟩
  · rw [if_neg hro]
    exact ⟨h0, by linarith, hdone, hdisj⟩

theorem wrapSpace_inv {cw : Char → Rat} {maxW : Rat} {B : Nat} {m : List Char → Rat}
    {t : List Char} {we : Nat} {s : WrapSt}
    (hcw : ∀ c, 0 ≤ cw c) (hm : m [' '] = cw ' ')
    (h0 : 0 ≤ s.clw) (hle : s.clw ≤ maxW)
    (hdone : ∀ l ∈ doneLines s.out, measQ cw (trim1 l) ≤ maxW)
    (hdisj : measQ cw (lastLine s.out) = s.clw ∨
      (measQ cw (trim1 (lastLine s.out)) ≤ maxW ∧ B ≤ s.out.length + 1)) :
    WrapInv cw maxW B (wrapSpace m B t we s).2 := by
  have hsame : WrapInv cw maxW B s := by
    refine ⟨h0, hdone, ?_⟩
    rcases hdisj with hA | h2
    · exact Or.inl ⟨hA, Or.inl hle⟩
    · exact Or.inr h2
  unfold wrapSpace
  by_cases hsp : we < t.length ∧ tget t we = ' '
  · rw [if_pos hsp]
    show WrapInv cw maxW B (if s.out.length + 1 < B then
        ({ wpush s ' ' with clw := s.clw + m [' '] } : WrapSt) else s)
    by_cases hro : s.out.length + 1 < B
    · rw [if_pos hro]
      rcases hdisj with hA | h2
      · refine ⟨?_, ?_, ?_⟩
        · show (0 : Rat) ≤ s.clw + m [' ']
          rw [hm]
          exact add_nonneg h0 (hcw ' ')
        · show ∀ l ∈ doneLines ((wpush s ' ').out), measQ cw (trim1 l) ≤ maxW
          rw [wpush_out, doneLines_append_char _ ' ' (by decide)]
          exact hdone
        · left
          constructor
          · show measQ cw (lastLine ((wpush s ' ').out)) = s.clw + m [' ']
            rw [wpush_out, lastLine_append_char _ ' ' (by decide), measQ_append,
              measQ_singleton, hA, hm]
          · right
            constructor
            · show (lastLine ((wpush s ' ').out)).getLast? = some ' '
              rw [wpush_out, lastLine_append_char _ ' ' (by decide), List.getLast?_concat]
            · show s.clw + m [' '] ≤ maxW + cw ' '
              rw [hm]
              linarith
      · exact absurd h2.2 (by omega)
    · rw [if_neg hro]
      exact hsame
  · rw [if_neg hsp]
    exact hsame

theorem wrapStep_inv {cw : Char → Rat} {maxW : Rat} {B : Nat} {m : List Char → Rat}
    {t : List Char} {i : Nat} {s : WrapSt}
    (hcw : ∀ c, 0 ≤ cw c) (_hmw : 0 < maxW)
    (hm : ∀ l, m l = measQ cw l)
    (hnonl : '\n' ∉ t)
    (hseg : ∀ a, a < t.length + 1 → ∀ b, b < t.length + 1 →
      (∀ j, j < t.length → a ≤ j → j < b → tget t j ≠ ' ') →
      measQ cw (sub t a b) ≤ maxW)
    (hi : i < t.length)
    (hroom : s.out.length + 1 < B)
    (hinv : WrapInv cw maxW B s) :
    WrapInv cw maxW B (wrapStep m maxW B t i s).2 := by
  obtain ⟨h0, hdone, hcase⟩ := hinv
  obtain ⟨hlast, hdisj⟩ : measQ cw (lastLine s.out) = s.clw ∧
      (s.clw ≤ maxW ∨ ((lastLine s.out).getLast? = some ' ' ∧ s.clw ≤ maxW + cw ' ')) := by
    rcases hcase with h | h
    · exact h
    · exact absurd h.2 (by omega)
  have hnl : tget t i ≠ '\n' := by
    intro h
    apply hnonl
    rw [← h]
    show t.getD i ' ' ∈ t
    rw [List.getD_eq_getElem t ' ' hi]
    exact List.getElem_mem hi
  have hwele : findWordEnd t i ≤ t.length := findWordEnd_le_len t i (le_of_lt hi)
  have hwege : i ≤ findWordEnd t i := findWordEnd_ge t i
  set we := findWordEnd t i with hwe
  set wl := min (we - i) 255 with hwl
  set wb := sub t i (i + wl) with hwb
  have hiwl : i + wl ≤ t.length := by
    have : wl ≤ we - i := min_le_left _ _
    omega
  have hlen : wb.length = wl := by
    rw [hwb, sub_length t i (i + wl) hiwl]
    omega
  have hnlb : ∀ c ∈ wb, c ≠ '\n' := by
    intro c hc hceq
    exact hnonl (hceq ▸ sub_subset t i (i + wl) c hc)
  have hword : measQ cw wb ≤ maxW := by
    apply hseg i (by omega) (i + wl) (by omega)
    intro j _ hj hjl
    have : j < we := by omega
    exact (findWordEnd_spec t i j hj this).1
  have hnofb : ¬maxW < m wb := by
    rw [hm]
    exact not_lt.mpr hword
  have hstep : (wrapStep m maxW B t i s).2 =
      (wrapSpace m B t we (wrapPlace m maxW B t i we wl wb (m wb)
        (wrapBreak maxW B i (m wb) s))).2 := by
    unfold wrapStep
    rw [if_neg hnl]
  rw [hstep]
  have hwszle : m wb ≤ maxW := by
    rw [hm]
    exact hword
  obtain ⟨hb0, hbsum, hbdone, hbdisj⟩ :=
    @wrapBreak_inv cw maxW B i (m wb) s hcw hwszle h0 hdone hlast hdisj
  obtain ⟨hp0, hple, hpdone, hpdisj⟩ :=
    @wrapPlace_inv cw maxW B m t i we wl wb (m wb) (wrapBreak maxW B i (m wb) s) hcw
      (hm wb) hnlb hlen hnofb hb0 hbsum hbdone hbdisj
  exact @wrapSpace_inv cw maxW B m t we _ hcw ((hm [' ']).trans (measQ_singleton cw ' '))
    hp0 hple hpdone hpdisj

theorem wrapGo_inv {cw : Char → Rat} {maxW : Rat} {B : Nat} {m : List Char → Rat}
    {t : List Char}
    (hcw : ∀ c, 0 ≤ cw c) (hmw : 0 < maxW)
    (hm : ∀ l, m l = measQ cw l)
    (hnonl : '\n' ∉ t)
    (hseg : ∀ a, a < t.length + 1 → ∀ b, b < t.length + 1 →
      (∀ j, j < t.length → a ≤ j → j < b → tget t j ≠ ' ') →
      measQ cw (sub t a b) ≤ maxW) :
    ∀ (fuel i : Nat) (s : WrapSt), WrapInv cw maxW B s →
      WrapInv cw maxW B (wrapGo m maxW B t fuel i s) := by
  intro fuel
  induction fuel with
  | zero => exact fun i s h => h
  | succ n ih =>
    intro i s h
    by_cases hc : i < t.length ∧ s.out.length + 1 < B
    · rw [show wrapGo m maxW B t (n + 1) i s =
          wrapGo m maxW B t n (wrapStep m maxW B t i s).1 (wrapStep m maxW B t i s).2 from by
        simp only [wrapGo, if_pos hc]]
      exact ih _ _ (wrapStep_inv hcw hmw hm hnonl hseg hc.1 hc.2 h)
    · rw [show wrapGo m maxW B t (n + 1) i s = s from by simp only [wrapGo, if_neg hc]]
      exact h

theorem wrapSpace_lineCount (m : List Char → Rat) (B : Nat) (t : List Char)
    (wordEnd : Nat) (s : WrapSt) : (wrapSpace m B t wordEnd s).2.lineCount = s.lineCount := by
  unfold wrapSpace
  by_cases hsp : wordEnd < t.length ∧ tget t wordEnd = ' '
  · rw [if_pos hsp]
    by_cases hro : s.out.length + 1 < B
    · show (if s.out.length + 1 < B then
          ({ wpush s ' ' with clw := s.clw + m [' '] } : WrapSt) else s).lineCount = s.lineCount
      rw [if_pos hro]
      rfl
    · show (if s.out.length + 1 < B then
          ({ wpush s ' ' with clw := s.clw + m [' '] } : WrapSt) else s).lineCount = s.lineCount
      rw [if_neg hro]
  · rw [if_neg hsp]

/-- Counterexample to C1 as stated: with every character 1 unit wide and
maxWidth 1, the input "a " consists of the single word "a" of width 1, which
does not exceed the budget; yet the wrapped output is the single line "a "
whose measured width is 2 > 1, because the space following the word is
width-accounted and appended with no budget check and no later word arrives
to trigger the trailing-space trim. -/
theorem claim_C1_counterexample :
    WrapTextBySlot (addMeasure cw1) fontTable1 0 (some ['a', ' ']) 1 0 1 false 64 =
      some { out := ['a', ' '], lineCount := 1, maxWrite := 2 } ∧
    measQ cw1 ['a'] ≤ 1 ∧
    linesOf ['a', ' '] = [['a', ' ']] ∧
    ¬measQ cw1 ['a', ' '] ≤ 1 :=
  ⟨by with_unfolding_all decide, by with_unfolding_all decide, by decide,
   by with_unfolding_all decide⟩

/-- C1 (amended): under the additive measurement model with nonnegative
per-character widths, for every call to WrapTextBySlot whose input contains
no explicit line-break characters and whose space-free segments (hence in
particular every word) each measure at most maxWidth, every line of the
wrapped output measures at most maxWidth once a single trailing space (if
present) is removed; the restriction to newline-free inputs is forced by the
duplication bug of claim C2, and the trailing-space allowance by
claim_C1_counterexample. Second part: the break decision is a strict
comparison, so a word whose addition makes the line width exactly equal to
maxWidth is kept on the line: no break is inserted, the word is appended to
the current line and the line count is unchanged. -/
theorem claim_C1_no_overflow :
    (∀ (cw : Char → Rat) (st : FontTable) (slot : Int) (t : List Char)
        (fontSize spacing maxWidth : Rat) (bufferSize : Int) (r : WrapRes),
      (∀ c, 0 ≤ cw c) →
      '\n' ∉ t →
      (∀ a, a < t.length + 1 → ∀ b, b < t.length + 1 →
        (∀ j, j < t.length → a ≤ j → j < b → tget t j ≠ ' ') →
        measQ cw (sub t a b) ≤ maxWidth) →
      WrapTextBySlot (addMeasure cw) st slot (some t) fontSize spacing maxWidth false
        bufferSize = some r →
      ∀ l ∈ linesOf r.out, measQ cw (trim1 l) ≤ maxWidth) ∧
    (∀ (cw : Char → Rat) (maxWidth : Rat) (B : Nat) (t : List Char) (i : Nat) (s : WrapSt),
      i < t.length → tget t i ≠ '\n' →
      0 < s.clw →
      s.clw + measQ cw (sub t i (i + min (findWordEnd t i - i) 255)) = maxWidth →
      s.out.length + min (findWordEnd t i - i) 255 < B →
      (wrapStep (measQ cw) maxWidth B t i s).2.out.take
          (s.out.length + min (findWordEnd t i - i) 255) =
        s.out ++ sub t i (i + min (findWordEnd t i - i) 255) ∧
      (wrapStep (measQ cw) maxWidth B t i s).2.lineCount = s.lineCount) := by
  constructor
  · intro cw st slot t fontSize spacing maxWidth bufferSize r hcw hnonl hseg hres
    unfold WrapTextBySlot at hres
    by_cases hC : slot < 0 ∨ 32 ≤ slot ∨ (!(st slot.toNat).isLoaded) = true ∨
        (some t = none) ∨ (false = true) ∨ fontSize ≤ 0 ∨ maxWidth ≤ 0 ∨ bufferSize ≤ 0
    · rw [if_pos hC] at hres
      cases hres
    · rw [if_neg hC] at hres
      have hmw : 0 < maxWidth := by
        by_cases h : maxWidth ≤ 0
        · exact absurd (Or.inr (Or.inr (Or.inr (Or.inr (Or.inr (Or.inr (Or.inl h))))))) hC
        · exact lt_of_not_le h
      simp only [Option.getD_some] at hres
      by_cases ht : t = []
      · rw [if_pos ht] at hres
        have hr := (Option.some.inj hres).symm
        intro l hl
        rw [hr] at hl
        have : l = [] := by
          have hlin : linesOf ([] : List Char) = [[]] := rfl
          rw [show ({ out := [], lineCount := 0, maxWrite := 0 } : WrapRes).out = [] from rfl,
            hlin] at hl
          exact List.mem_singleton.mp hl
        rw [this]
        show measQ cw (trim1 []) ≤ maxWidth
        have : trim1 ([] : List Char) = [] := rfl
        rw [this]
        exact le_of_lt (by simpa [measQ] using hmw)
      · rw [if_neg ht] at hres
        have hr := (Option.some.inj hres).symm
        have hrout : r.out = (wrapGo (fun l => addMeasure cw (st slot.toNat).font l
            fontSize spacing) maxWidth bufferSize.toNat t t.length 0 initWrapSt).out := by
          rw [hr]
        have hinit : WrapInv cw maxWidth bufferSize.toNat initWrapSt := by
          refine ⟨le_refl 0, ?_, Or.inl ⟨rfl, Or.inl (le_of_lt hmw)⟩⟩
          intro l hl
          have hde : doneLines ([] : List Char) = [] := rfl
          rw [show initWrapSt.out = ([] : List Char) from rfl, hde] at hl
          cases hl
        have hmeq : (fun l => addMeasure cw (st slot.toNat).font l fontSize spacing) =
            measQ cw := rfl
        rw [hmeq] at hrout
        intro l hl
        have hfin := @wrapGo_inv cw maxWidth bufferSize.toNat (measQ cw) t hcw hmw
          (fun l => rfl) hnonl hseg t.length 0 initWrapSt hinit
        obtain ⟨hf0, hfdone, hfcase⟩ := hfin
        rw [hrout, linesOf_eq_done_last] at hl
        rcases List.mem_append.mp hl with h | h
        · exact hfdone l h
        · rcases List.mem_singleton.mp h with rfl
          rcases hfcase with ⟨hA, hd⟩ | ⟨h2, _⟩
          · rcases hd with hd | ⟨hsp, hd⟩
            · exact le_trans (measQ_trim1_le hcw _) (le_trans (le_of_eq hA) hd)
            · rw [trim1_of_space hsp]
              have := @measQ_dropLast_getLast cw _ _ hsp
              linarith [this, hA]
          · exact h2
  · intro cw maxWidth B t i s hi hnl hclw hfit hroom
    set we := findWordEnd t i with hwe
    set wl := min (we - i) 255 with hwl
    set wb := sub t i (i + wl) with hwb
    have hnobr : ¬(0 < s.clw ∧ maxWidth < s.clw + measQ cw wb) := by
      rintro ⟨_, hlt⟩
      rw [hfit] at hlt
      exact lt_irrefl _ hlt
    have hnofb : ¬maxWidth < measQ cw wb := by
      intro h
      have : measQ cw wb = maxWidth - s.clw := by linarith
      rw [this] at h
      linarith
    have hstep : wrapStep (measQ cw) maxWidth B t i s =
        wrapSpace (measQ cw) B t we (wrapPlace (measQ cw) maxWidth B t i we wl wb
          (measQ cw wb) (wrapBreak maxWidth B i (measQ cw wb) s)) := by
      unfold wrapStep
      rw [if_neg hnl]
    have hbreak : wrapBreak maxWidth B i (measQ cw wb) s = s := by
      unfold wrapBreak
      rw [if_neg hnobr]
    have hplace : wrapPlace (measQ cw) maxWidth B t i we wl wb (measQ cw wb) s =
        { wpushList s wb with clw := s.clw + measQ cw wb } := by
      unfold wrapPlace
      rw [if_neg hnofb, if_pos hroom]
    have hwele : we ≤ t.length := findWordEnd_le_len t i (le_of_lt hi)
    have hiwl : i + wl ≤ t.length := by
      have : wl ≤ we - i := min_le_left _ _
      have := findWordEnd_ge t i
      omega
    have hlen : (s.out ++ wb).length = s.out.length + wl := by
      rw [List.length_append, hwb, sub_length t i (i + wl) hiwl]
      omega
    rw [hstep, hbreak, hplace]
    constructor
    · rcases wrapSpace_out (measQ cw) B t we
          ({ wpushList s wb with clw := s.clw + measQ cw wb } : WrapSt) with hout | hout
      · rw [hout]
        simp only [wrapSt_out_clw, wpushList_out]
        rw [← hlen, List.take_length]
      · rw [hout]
        simp only [wrapSt_out_clw, wpushList_out]
        exact List.take_left' hlen
    · rw [wrapSpace_lineCount]
      show ({ wpushList s wb with clw := s.clw + measQ cw wb } : WrapSt).lineCount =
        s.lineCount
      have : ({ wpushList s wb with clw := s.clw + measQ cw wb } : WrapSt).lineCount =
          (wpushList s wb).lineCount := rfl
      rw [this, wpushList_lineCount]

/-- Witness for C1 (amended): the input "ab" against budget 2 with unit
character widths yields the single line "ab", which fits the budget. -/
theorem claim_C1_witness : measQ cw1 (trim1 ['a', 'b']) ≤ 2 :=
  claim_C1_no_overflow.1 cw1 fontTable1 0 ['a', 'b'] 1 0 2 64
    { out := ['a', 'b'], lineCount := 1, maxWrite := 2 }
    (fun _ => by norm_num [cw1]) (by decide)
    (by
      intro a ha b hb hfree
      have ha3 : a < 3 := by simpa using ha
      have hb3 : b < 3 := by simpa using hb
      clear ha hb hfree
      interval_cases a <;> interval_cases b <;> with_unfolding_all decide)
    (by with_unfolding_all decide)
    ['a', 'b'] (by decide)
